import Mathlib

/-!
# zol9527/proxies: extraction and verification engine

A shallow embedding of `internal/scraper.go` and `pkg/check/ip.go`.

Go strings are modelled as `String` (lists of characters); the functions of
the libraries the program calls (`regexp`, `strings`, `strconv`, lancet's
`strutil`, `validator`, `convertor`, goquery) are modelled by the definitions
of the first sections or taken as parameters.  Network input and output is
modelled by explicit values for what each call returned.
-/

namespace Proxies

/-! ## Go `strings` helpers on character lists -/

/-- Substring test of `strings.Contains`, on character lists. -/
def containsChars (pat : List Char) : List Char → Bool
  | [] => pat.isEmpty
  | c :: cs => pat.isPrefixOf (c :: cs) || containsChars pat cs

/-- Go `strings.Contains(s, sub)`. -/
def strContains (s sub : String) : Bool := containsChars sub.data s.data

/-- Go `strings.HasPrefix(s, pre)`. -/
def strHasPrefix (s pre : String) : Bool := pre.data.isPrefixOf s.data

/-- Go `strings.ReplaceAll` for a non-empty `old`: the first argument counts the
characters of a replaced occurrence that are still to be skipped. -/
def replaceAllAux (old new : List Char) : Nat → List Char → List Char
  | _, [] => []
  | skip + 1, _ :: cs => replaceAllAux old new skip cs
  | 0, c :: cs =>
    if old.isPrefixOf (c :: cs) then new ++ replaceAllAux old new (old.length - 1) cs
    else c :: replaceAllAux old new 0 cs

/-- Go `strings.ReplaceAll(s, old, new)` (for a non-empty `old`). -/
def strReplaceAll (s old new : String) : String :=
  ⟨replaceAllAux old.data new.data 0 s.data⟩

/-- Splitting at a separator character: `cur` holds the current piece, reversed. -/
def splitCharAux (sep : Char) : List Char → List Char → List (List Char)
  | cur, [] => [cur.reverse]
  | cur, c :: cs =>
    if c = sep then cur.reverse :: splitCharAux sep [] cs
    else splitCharAux sep (c :: cur) cs

/-- Go `strings.Split(s, sep)` for a separator of one character. -/
def strSplit (s : String) (sep : Char) : List String :=
  (splitCharAux sep [] s.data).map String.mk

/-- White space in the sense of Go `unicode.IsSpace`. -/
def isGoSpace (c : Char) : Bool :=
  c = '\t' || c = '\n' || c = Char.ofNat 0x0B || c = Char.ofNat 0x0C || c = '\r' || c = ' ' ||
  c = Char.ofNat 0x85 || c = Char.ofNat 0xA0 || c = Char.ofNat 0x1680 ||
  (0x2000 ≤ c.toNat && c.toNat ≤ 0x200A) || c = Char.ofNat 0x2028 || c = Char.ofNat 0x2029 ||
  c = Char.ofNat 0x202F || c = Char.ofNat 0x205F || c = Char.ofNat 0x3000

/-- Go `strings.TrimSpace`. -/
def strTrimSpace (s : String) : String :=
  ⟨((s.data.dropWhile isGoSpace).reverse.dropWhile isGoSpace).reverse⟩

/-! ## Go `regexp`: a backtracking matcher with leftmost-first preference -/

/-- Regular expressions, as far as the patterns of the program use them.
`rep r lo hi greedy` is `r{lo,hi}` (`hi = none`: unbounded), lazy when
`greedy` is false; `group i r` is the `i`-th capturing group. -/
inductive Re where
  | chr (p : Char → Bool)
  | eps
  | seq (a b : Re)
  | alt (a b : Re)
  | rep (r : Re) (lo : Nat) (hi : Option Nat) (greedy : Bool)
  | group (i : Nat) (r : Re)
  | wordB
  | bol
  | eol

/-- A position of the matcher in the text: the characters before the cursor
(nearest first), the characters after it, the capture groups set so far. -/
structure MState where
  before : List Char
  rest : List Char
  caps : List (Nat × List Char)

/-- The text of capture group `i` (empty when the group took no part). -/
def MState.cap (s : MState) (i : Nat) : List Char :=
  match s.caps.find? (fun p => p.1 == i) with
  | some p => p.2
  | none => []

/-- The text consumed between an earlier position `s` and a later one `t`. -/
def consumed (s t : MState) : List Char :=
  s.rest.take (s.rest.length - t.rest.length)

/-- Exactly `n` repetitions of `step`. -/
def repExact (step : MState → List MState) : Nat → MState → List MState
  | 0, s => [s]
  | n + 1, s => (step s).flatMap (repExact step n)

/-- At most `n` repetitions of `step`; a greedy repetition prefers one more
round, a lazy one prefers to stop. -/
def repUpTo (step : MState → List MState) (greedy : Bool) : Nat → MState → List MState
  | 0, s => [s]
  | n + 1, s =>
    if greedy then (step s).flatMap (repUpTo step greedy n) ++ [s]
    else s :: (step s).flatMap (repUpTo step greedy n)

/-- ASCII word character `\w`. -/
def isWordChar (c : Char) : Bool := c.isAlphanum || c = '_'

/-- All the ways `r` matches at position `s`, in the order of preference of a
backtracking matcher; the first one is the match Go reports.  An unbounded
repetition runs at most once per remaining character (the bodies repeated in
the program's patterns all consume a character). -/
def Re.run : Re → MState → List MState
  | .chr p, s =>
    match s.rest with
    | c :: cs => if p c then [{ s with before := c :: s.before, rest := cs }] else []
    | [] => []
  | .eps, s => [s]
  | .seq a b, s => (a.run s).flatMap (fun t => b.run t)
  | .alt a b, s => a.run s ++ b.run s
  | .rep r lo hi greedy, s =>
    (repExact (fun t => r.run t) lo s).flatMap (fun t =>
      repUpTo (fun u => r.run u) greedy
        (match hi with
         | some h => h - lo
         | none => t.rest.length) t)
  | .group i r, s => (r.run s).map (fun t => { t with caps := (i, consumed s t) :: t.caps })
  | .wordB, s =>
    if (s.before.head?.map isWordChar).getD false != (s.rest.head?.map isWordChar).getD false
    then [s] else []
  | .bol, s => if s.before.isEmpty then [s] else []
  | .eol, s => if s.rest.isEmpty then [s] else []

/-- The leftmost match of `r` at or after the position `(before, rest)`: the
position where it starts and the position where it ends. -/
def Re.find (r : Re) : List Char → List Char → Option (MState × MState)
  | before, [] => (r.run ⟨before, [], []⟩).head?.map (fun t => (⟨before, [], []⟩, t))
  | before, c :: cs =>
    match (r.run ⟨before, c :: cs, []⟩).head? with
    | some t => some (⟨before, c :: cs, []⟩, t)
    | none => r.find (c :: before) cs

/-- The submatches of one match: the whole match, then groups `1 .. n`. -/
def submatches (n : Nat) (s t : MState) : List String :=
  ⟨consumed s t⟩ :: (List.range n).map (fun i => ⟨t.cap (i + 1)⟩)

/-- The loop of Go `regexp.(*Regexp).allMatches`: successive non-overlapping
matches from the position `(before, rest)`; `prevEnd` is the offset where the
previous match ended.  An empty match moves the cursor one character on and is
dropped when it touches the previous match. -/
def Re.allMatches (r : Re) (n : Nat) :
    Nat → List Char → List Char → Option Nat → List (List String)
  | 0, _, _, _ => []
  | fuel + 1, before, rest, prevEnd =>
    match r.find before rest with
    | none => []
    | some (s, t) =>
      if t.rest.length = rest.length then
        let out := if some s.before.length = prevEnd then [] else [submatches n s t]
        match rest with
        | [] => out
        | c :: cs => out ++ r.allMatches n fuel (c :: before) cs (some t.before.length)
      else
        submatches n s t :: r.allMatches n fuel t.before t.rest (some t.before.length)

/-- Go `(*Regexp).FindAllStringSubmatch(str, -1)` for a pattern with `n`
capture groups. -/
def Re.findAllStringSubmatch (r : Re) (n : Nat) (str : String) : List (List String) :=
  r.allMatches n (str.length + 1) [] str.data none

/-- Go `(*Regexp).FindString`: the text of the leftmost match, `""` without one. -/
def Re.findString (r : Re) (str : String) : String :=
  match r.find [] str.data with
  | some (s, t) => ⟨consumed s t⟩
  | none => ""

/-- A compiled pattern: the expression and its number of capture groups. -/
structure Pattern where
  re : Re
  groups : Nat

/-- Lancet `strutil.RegexMatchAllGroups(pattern, str)`, which is
`regexp.MustCompile(pattern).FindAllStringSubmatch(str, -1)`. -/
def RegexMatchAllGroups (pattern : Pattern) (str : String) : List (List String) :=
  pattern.re.findAllStringSubmatch pattern.groups str

/-! ### Pattern building blocks -/

/-- The class `\d`, which is `[0-9]`. -/
def reDigit : Re := .chr Char.isDigit

/-- One literal character. -/
def reChar (c : Char) : Re := .chr (fun d => d = c)

/-- The class `\s`, which is `[\t\n\f\r ]`. -/
def reSpace : Re :=
  .chr (fun c => c = '\t' || c = '\n' || c = Char.ofNat 0x0C || c = '\r' || c = ' ')

/-- The wildcard `.`, any character but a line feed. -/
def reDot : Re := .chr (fun c => c != '\n')

/-- A sequence of expressions. -/
def reSeq : List Re → Re
  | [] => .eps
  | [r] => r
  | r :: rs => .seq r (reSeq rs)

/-- A literal string. -/
def reLit (s : String) : Re := reSeq (s.data.map reChar)

/-- The range `[a-b]`. -/
def reRange (a b : Char) : Re := .chr (fun c => a ≤ c && c ≤ b)

/-- The fragment `(?:\d{1,3}\.){3}\d{1,3}` shared by the patterns. -/
def reDottedQuad : Re :=
  .seq (.rep (.seq (.rep reDigit 1 (some 3) true) (reChar '.')) 3 (some 3) true)
    (.rep reDigit 1 (some 3) true)

/-! ## Library predicates on extracted texts -/

/-- The value of a decimal digit character. -/
def digitVal (c : Char) : Nat := c.toNat - '0'.toNat

/-- The scan of Go `net/netip.parseIPv4`: `val` is the value of the octet being
read, `pos` the number of octets finished, `digLen` the digits of the current
octet, `prev` the character before the cursor. -/
def parseIPv4Aux : Nat → Nat → Nat → Option Char → List Char → Bool
  | _, pos, _, _, [] => decide (3 ≤ pos)
  | val, pos, digLen, prev, c :: cs =>
    if c.isDigit then
      if digLen = 1 ∧ val = 0 then false
      else if 255 < val * 10 + digitVal c then false
      else parseIPv4Aux (val * 10 + digitVal c) pos (digLen + 1) (some c) cs
    else if c = '.' then
      if prev = none ∨ cs = [] ∨ prev = some '.' then false
      else if pos = 3 then false
      else parseIPv4Aux 0 (pos + 1) 0 (some c) cs
    else false

/-- Lancet `validator.IsIpV4`, which asks `net.ParseIP` for an IPv4 address, on
a text made of digits and dots (every call site passes the match of a
digits-and-dots pattern): four octets of value at most 255, none empty, none
with a leading zero. -/
def IsIpV4 (ipstr : String) : Bool := parseIPv4Aux 0 0 0 none ipstr.data

/-- The value of a digit string in base `b`, most significant digit first;
`none` when a digit is not below `b`. -/
def digitsValue (b : Nat) : Nat → List Char → Option Nat
  | acc, [] => some acc
  | acc, c :: cs =>
    if c.isDigit ∧ digitVal c < b then digitsValue b (acc * b + digitVal c) cs else none

/-- Lancet `convertor.ToInt` on a string, which is `strconv.ParseInt(s, 0, 64)`,
on a text made of digits (every call site passes the match of a digits
pattern): base 8 after a leading `0`, base 10 otherwise; `none` stands for the
error result. -/
def ToInt (s : String) : Option Int :=
  match s.data with
  | [] => none
  | c :: cs =>
    let v := if c = '0' then digitsValue 8 0 cs else digitsValue 10 0 (c :: cs)
    match v with
    | some n => if n < 2 ^ 63 then some (n : Int) else none
    | none => none

/-! ## The endpoint extractor (`internal/scraper.go`) -/

/-- The pattern of strategy 1, `((?:\d{1,3}\.){3}\d{1,3}:\d{1,5})`. -/
def directPattern : Pattern :=
  ⟨.group 1 (reSeq [reDottedQuad, reChar ':', .rep reDigit 1 (some 5) true]), 1⟩

/-- The octet alternative `(25[0-5]|2[0-4][0-9]|[01]?[0-9][0-9]?)` as group `i`. -/
def reOctet (i : Nat) : Re :=
  .group i
    (.alt (reSeq [reChar '2', reChar '5', reRange '0' '5'])
      (.alt (reSeq [reChar '2', reRange '0' '4', reRange '0' '9'])
        (reSeq [.rep (reRange '0' '1') 0 (some 1) true, reRange '0' '9',
          .rep (reRange '0' '9') 0 (some 1) true])))

/-- The cell pattern for addresses,
`\b(25[0-5]|2[0-4][0-9]|[01]?[0-9][0-9]?)(\.(25[0-5]|2[0-4][0-9]|[01]?[0-9][0-9]?)){3}\b`. -/
def ipPattern : Pattern :=
  ⟨reSeq [.wordB, reOctet 1, .rep (.group 2 (.seq (reChar '.') (reOctet 3))) 3 (some 3) true,
    .wordB], 3⟩

/-- The cell pattern for ports, `\b([0-9]{1,5})\b`. -/
def portPattern : Pattern :=
  ⟨reSeq [.wordB, .group 1 (.rep (reRange '0' '9') 1 (some 5) true), .wordB], 1⟩

/-- The strict pattern of strategy 3,
`"host"\s*:\s*"((?:\d{1,3}\.){3}\d{1,3})".*?"port"\s*:\s*(\d{1,5})`. -/
def jsonPatternStrict : Pattern :=
  ⟨reSeq [reLit "\"host\"", .rep reSpace 0 none true, reChar ':', .rep reSpace 0 none true,
    reChar '"', .group 1 reDottedQuad, reChar '"', .rep reDot 0 none false,
    reLit "\"port\"", .rep reSpace 0 none true, reChar ':', .rep reSpace 0 none true,
    .group 2 (.rep reDigit 1 (some 5) true)], 2⟩

/-- The loose pattern of strategy 3,
`host\s*:\s*"?((?:\d{1,3}\.){3}\d{1,3})"?.*?port\s*:\s*(\d{1,5})`. -/
def jsonPatternLoose : Pattern :=
  ⟨reSeq [reLit "host", .rep reSpace 0 none true, reChar ':', .rep reSpace 0 none true,
    .rep (reChar '"') 0 (some 1) true, .group 1 reDottedQuad, .rep (reChar '"') 0 (some 1) true,
    .rep reDot 0 none false,
    reLit "port", .rep reSpace 0 none true, reChar ':', .rep reSpace 0 none true,
    .group 2 (.rep reDigit 1 (some 5) true)], 2⟩

/-- The view of a page that `parseFromTable` takes through goquery:
`tableRows html` is `none` when `goquery.NewDocumentFromReader` fails, and
otherwise lists, for every row selected by `Find("table tr")`, the `Text()` of
each cell selected in it by `Find("td")`. -/
structure Goquery where
  tableRows : String → Option (List (List String))

/-- The port loop of a cell: the first match that converts to a number in
`1 .. 65535`, else the port found so far. -/
def firstValidPort (port : String) : List (List String) → String
  | [] => port
  | portMatch :: more =>
    match portMatch with
    | candidatePort :: _ =>
      match ToInt candidatePort with
      | some portNum =>
        if 0 < portNum ∧ portNum ≤ 65535 then candidatePort else firstValidPort port more
      | none => firstValidPort port more
    | [] => firstValidPort port more

/-- The body run on one cell of a row: the state is the address and the port
found so far in the row. -/
def cellStep (st : String × String) (text : String) : String × String :=
  let cellText := strTrimSpace text
  let ip :=
    if st.1 = "" then
      match RegexMatchAllGroups ipPattern cellText with
      | (candidateIP :: _) :: _ => if IsIpV4 candidateIP then candidateIP else st.1
      | _ => st.1
    else st.1
  let port :=
    if st.2 = "" then firstValidPort st.2 (RegexMatchAllGroups portPattern cellText)
    else st.2
  (ip, port)

/-- The body run on one table row: the candidates it appends. -/
def rowStep (cells : List String) : List String :=
  let st := cells.foldl cellStep ("", "")
  if st.1 ≠ "" ∧ st.2 ≠ "" then [st.1 ++ ":" ++ st.2] else []

/-- Strategy 2, `parseFromTable`. -/
def parseFromTable (gq : Goquery) (html : String) : List String :=
  match gq.tableRows html with
  | none => []
  | some rows => rows.flatMap rowStep

/-- The two patterns of strategy 3, in the order they are tried. -/
def jsonPatterns : List Pattern := [jsonPatternStrict, jsonPatternLoose]

/-- The validation of one match of strategy 3. -/
def jsonCandidate (m : List String) : List String :=
  match m with
  | _ :: ip :: port :: _ =>
    if IsIpV4 ip then
      match ToInt port with
      | some portNum => if 0 < portNum ∧ portNum ≤ 65535 then [ip ++ ":" ++ port] else []
      | none => []
    else []
  | _ => []

/-- Strategy 3, `parseFromJson`. -/
def parseFromJson (html : String) : List String :=
  let processedHtml := strReplaceAll html "\\\"" "\""
  let jsonMatches := jsonPatterns.flatMap (fun pattern => RegexMatchAllGroups pattern processedHtml)
  let jsonMatches :=
    if jsonMatches.length = 0 then
      (strSplit processedHtml '\n').flatMap (fun line =>
        if strContains line "host" && strContains line "port" then
          jsonPatterns.flatMap (fun pattern => RegexMatchAllGroups pattern line)
        else [])
    else jsonMatches
  jsonMatches.flatMap jsonCandidate

/-- Strategy 1, the scan of the first lines of `ParseURLs`: every submatch of
every match of the direct pattern, appended in order. -/
def directScan (html : String) : List String :=
  (RegexMatchAllGroups directPattern html).foldl (fun ips ipSlice => ips ++ ipSlice) []

/-- The extractor `ParseURLs`. -/
def ParseURLs (gq : Goquery) (html : String) : List String :=
  let ips := directScan html
  let ips := if ips.length = 0 then parseFromTable gq html else ips
  let ips := if ips.length = 0 then parseFromJson html else ips
  ips

/-! ## The protocol probes (`pkg/check/ip.go`) -/

/-- What the network did on the one connection a raw probe opens: whether
`net.DialTimeout` and `Write` failed, the bytes the peer had for the one `Read`,
and whether that `Read` reported an error. -/
structure Conn where
  dialErr : Bool
  writeErr : Bool
  readData : List Nat
  readErr : Bool

/-- The number `n` that `Read` reports for a buffer of `size` bytes. -/
def Conn.readCount (c : Conn) (size : Nat) : Nat := min c.readData.length size

/-- The buffer after `Read`: the bytes delivered, the rest still zero. -/
def Conn.readBuffer (c : Conn) (size : Nat) : List Nat :=
  (List.range size).map (fun i => (c.readData.take size).getD i 0)

/-- Go `string(bytes)`, one character per byte. -/
def bytesToString (bs : List Nat) : String := ⟨bs.map Char.ofNat⟩

/-- What the fast probe met: the failures of `net.DialTimeout`, `url.Parse`,
`http.NewRequest` and `client.Do`, and the status code of the response. -/
structure FastOutcome where
  dialErr : Bool
  parseErr : Bool
  requestErr : Bool
  doErr : Bool
  statusCode : Int

/-- The fast liveness probe `FastCheckHttp`. -/
def FastCheckHttp (o : FastOutcome) : Bool :=
  if o.dialErr then false
  else if o.parseErr then false
  else if o.requestErr then false
  else if o.doErr then false
  else decide (200 ≤ o.statusCode) && decide (o.statusCode < 400)

/-- The target of the CONNECT request of `CheckHttpsResponse`: the pair
`(targetDomain, targetPort)` after the normalisation of the domain. -/
def httpsTarget (reqDomain : String) : String × String :=
  let targetDomain := "baidu.com"
  let targetPort := "443"
  let domainParts := strSplit reqDomain ':'
  let targetDomain := if reqDomain ≠ "" then domainParts.headD "" else targetDomain
  let targetPort :=
    if reqDomain ≠ "" ∧ 1 < domainParts.length then domainParts.getD 1 "" else targetPort
  let targetDomain :=
    if !strHasPrefix targetDomain "www." && !strContains targetDomain "." then
      "www." ++ targetDomain
    else targetDomain
  (targetDomain, targetPort)

/-- The `targetAddress` of `CheckHttpsResponse`. -/
def targetAddress (reqDomain : String) : String :=
  (httpsTarget reqDomain).1 ++ ":" ++ (httpsTarget reqDomain).2

/-- The request text `connectReq` that `CheckHttpsResponse` writes. -/
def connectReq (reqDomain : String) : String :=
  "CONNECT " ++ targetAddress reqDomain ++ " HTTP/1.1\r\n" ++
    "Host: " ++ targetAddress reqDomain ++ "\r\n" ++
    "User-Agent: Mozilla/5.0\r\n" ++
    "Connection: keep-alive\r\n\r\n"

/-- The text handed to `Write` by `CheckHttpsResponse`, when the dial succeeded. -/
def httpsWritten (c : Conn) (reqDomain : String) : Option String :=
  if c.dialErr then none else some (connectReq reqDomain)

/-- The response text `string(buffer[:read])` of `CheckHttpsResponse`. -/
def httpsResponse (c : Conn) : String :=
  bytesToString ((c.readBuffer 256).take (c.readCount 256))

/-- The HTTPS-capability probe `CheckHttpsResponse(ip, reqDomain, strContains)`;
the last argument is not used by the code. -/
def CheckHttpsResponse (c : Conn) (_reqDomain _strContains : String) : Bool :=
  if c.dialErr then false
  else if c.writeErr then false
  else if c.readErr then false
  else strContains (httpsResponse c) "200"

/-- The greeting `req` of `CheckSocket5Response`. -/
def socks5Greeting : List Nat := [0x05, 0x01, 0x00]

/-- The SOCKS5-capability probe `CheckSocket5Response`. -/
def CheckSocket5Response (c : Conn) : Bool :=
  if c.dialErr then false
  else if c.writeErr then false
  else
    let bytes := c.readBuffer 2
    let n := c.readCount 2
    if c.readErr ∨ n < 2 then false
    else bytes.getD 0 0 == 0x05 && bytes.getD 1 0 != 0xFF

/-- What the anonymity probe met: the failures of `url.Parse`, `http.NewRequest`
and `client.Do`, and the bytes that the body of the response delivered, one
character per byte. -/
structure EchoFetch where
  parseErr : Bool
  requestErr : Bool
  doErr : Bool
  body : String

/-- A lazy run of digits, `\d+?`. -/
def reDigitsLazy : Re := .rep reDigit 1 none false

/-- The fragment `\d+?\.\d+?\.\d+?\.\d+?`. -/
def reLooseQuad : Re :=
  reSeq [reDigitsLazy, reChar '.', reDigitsLazy, reChar '.', reDigitsLazy, reChar '.',
    reDigitsLazy]

/-- The pattern `ipRegex` of `CheckProxyAnonymity`,
`(\d+?\.\d+?\.\d+?\.\d+?,.+\d+?\.\d+?\.\d+?\.\d+?)`. -/
def leakPattern : Pattern :=
  ⟨.group 1 (reSeq [reLooseQuad, reChar ',', .rep reDot 1 none true, reLooseQuad]), 1⟩

/-- The text `result` that `CheckProxyAnonymity` inspects: the first 2048 bytes
of the body. -/
def echoResult (f : EchoFetch) : String := ⟨f.body.data.take 2048⟩

/-- The anonymity classification probe `CheckProxyAnonymity`. -/
def CheckProxyAnonymity (f : EchoFetch) : String :=
  if f.parseErr then ""
  else if f.requestErr then ""
  else if f.doErr then ""
  else
    let result := echoResult f
    if !strContains result "\"url\"" then ""
    else if leakPattern.re.findString result ≠ "" then "transparent"
    else if strContains result "keep-alive" then "common"
    else "high"

/-! ## The verification scheduler (`TestProxy` in `internal/scraper.go`) -/

/-- The worker ceiling `threadNum` for `cpuCount` processors and `len` candidates.
Go `int` is taken as `Nat`: four times a processor count stays far below `2 ^ 63`. -/
def threadNum (cpuCount len : Nat) : Nat :=
  let threadNum := cpuCount * 4
  let threadNum := if threadNum > len then len else threadNum
  let threadNum := if threadNum > 80 then 80 else threadNum
  threadNum

/-- The record `IpInfo` of `TestProxy`. -/
structure IpInfo where
  IP : String
  Http : Bool
  Https : Bool
  Socks5 : Bool
  Anonymity : String
deriving DecidableEq, Repr

/-- What the network does for each candidate, probe by probe. -/
structure Network where
  fast : String → FastOutcome
  https : String → Conn
  socks5 : String → Conn
  echo : String → EchoFetch

/-- The shared state of a run: the result list and the counters. -/
structure RunState where
  IpList : List IpInfo
  validCount : Nat
  httpCount : Nat
  httpsCount : Nat
  socks5Count : Nat
  processedCount : Nat
deriving DecidableEq, Repr

/-- The state at the start of `TestProxy`. -/
def RunState.init : RunState := ⟨[], 0, 0, 0, 0, 0⟩

/-- The effect of one task `checkFunc(ip)` on the shared state. -/
def checkFunc (net : Network) (ip : String) (st : RunState) : RunState :=
  let st := { st with processedCount := st.processedCount + 1 }
  let isHttp := FastCheckHttp (net.fast ip)
  if !isHttp then st
  else
    let st := { st with httpCount := st.httpCount + 1 }
    let isHttps := CheckHttpsResponse (net.https ip) "" ""
    let st := if isHttps then { st with httpsCount := st.httpsCount + 1 } else st
    let isSocket5 := CheckSocket5Response (net.socks5 ip)
    let st := if isSocket5 then { st with socks5Count := st.socks5Count + 1 } else st
    let anonymity := CheckProxyAnonymity (net.echo ip)
    let ipInfo : IpInfo :=
      { IP := ip, Http := isHttp, Https := isHttps, Socks5 := isSocket5, Anonymity := anonymity }
    { st with IpList := st.IpList ++ [ipInfo], validCount := st.validCount + 1 }

/-- The size of a batch. -/
def batchSize : Nat := 1000

/-- The slice `ips[start:end]` of batch `batchIndex`. -/
def batchIps (ips : List String) (batchIndex : Nat) : List String :=
  let totalCount := ips.length
  let start := batchIndex * batchSize
  let stop := start + batchSize
  let stop := if stop > totalCount then totalCount else stop
  (ips.drop start).take (stop - start)

/-- One batch: its tasks run concurrently and reach the shared state in the
order `done`, which the scheduler of the run decides. -/
def runBatch (net : Network) (done : List String) (st : RunState) : RunState :=
  done.foldl (fun st ip => checkFunc net ip st) st

/-- The batch loop of `TestProxy`: `order i b` is the order in which the tasks
of batch `i`, started for the candidates `b`, reach the shared state. -/
def testProxyRun (net : Network) (order : Nat → List String → List String)
    (ips : List String) : RunState :=
  let totalCount := ips.length
  let batchCount := (totalCount + batchSize - 1) / batchSize
  (List.range batchCount).foldl
    (fun st batchIndex => runBatch net (order batchIndex (batchIps ips batchIndex)) st)
    RunState.init

/-- The records `IpList` at the end of the batch loop of `TestProxy`. -/
def testProxyRecords (net : Network) (order : Nat → List String → List String)
    (ips : List String) : List IpInfo :=
  (testProxyRun net order ips).IpList

/-- The function `TestProxy`: the records, each one serialised by lancet
`convertor.ToJson` (`toJson`, `none` for its error result), the failures dropped. -/
def TestProxy (toJson : IpInfo → Option String) (net : Network)
    (order : Nat → List String → List String) (ips : List String) : List String :=
  (testProxyRecords net order ips).filterMap toJson

/-- The admission gate of a batch: `sem` permits of the batch's channel are
taken, `running` tasks are inside `checkFunc`, `leaving` tasks of the batch have
returned from it (their `wg.Done()` is past) and not yet given their permit
back. -/
structure Gate where
  sem : Nat
  running : Nat
  leaving : Nat
deriving DecidableEq, Repr

/-- The moves of the gate: the loop sends on `sem` and starts a task, a task
returns from `checkFunc`, a returned task receives from `sem`, and the loop,
past `wg.Wait()` (no task is inside `checkFunc`), makes the fresh channel of the
next batch, which the tasks still leaving the old one do not touch. -/
inductive GateEvent where
  | acquire
  | finish
  | release
  | nextBatch
deriving DecidableEq, Repr

/-- One move of the gate with `cap` permits; `none` when the move is blocked. -/
def Gate.step (cap : Nat) (g : Gate) : GateEvent → Option Gate
  | .acquire => if g.sem < cap then some ⟨g.sem + 1, g.running + 1, g.leaving⟩ else none
  | .finish => if 0 < g.running then some ⟨g.sem, g.running - 1, g.leaving + 1⟩ else none
  | .release => if 0 < g.leaving then some ⟨g.sem - 1, g.running, g.leaving - 1⟩ else none
  | .nextBatch => if g.running = 0 then some ⟨0, 0, 0⟩ else none

/-- A sequence of moves from a state of the gate. -/
def Gate.run (cap : Nat) : Gate → List GateEvent → Option Gate
  | g, [] => some g
  | g, e :: es =>
    match g.step cap e with
    | some g' => Gate.run cap g' es
    | none => none

/-- The gate before the first batch. -/
def Gate.init : Gate := ⟨0, 0, 0⟩

/-- The number of candidate tasks in flight. -/
def Gate.inFlight (g : Gate) : Nat := g.running

/-- The range test of the port checks: the text converts to a number in
`1 .. 65535`. -/
def portInRange (port : String) : Bool :=
  match ToInt port with
  | some portNum => decide (0 < portNum ∧ portNum ≤ 65535)
  | none => false

/-- A candidate that passed the checks of strategies 2 and 3: an address accepted
by `IsIpV4`, a colon, a port text in range. -/
def Validated (s : String) : Prop :=
  ∃ ip port : String, s = ip ++ ":" ++ port ∧ IsIpV4 ip = true ∧ portInRange port = true

/-- The invariant of the cell loop of a row: an address, once set, passed
`IsIpV4`, and a port, once set, is in range. -/
def RowInv (st : String × String) : Prop :=
  (st.1 = "" ∨ IsIpV4 st.1 = true) ∧ (st.2 = "" ∨ portInRange st.2 = true)

/-- The candidate passes the fast liveness probe. -/
def isLive (net : Network) (ip : String) : Bool := FastCheckHttp (net.fast ip)

/-- The record that the task of a live candidate assembles. -/
def recordOf (net : Network) (ip : String) : IpInfo :=
  { IP := ip
    Http := true
    Https := CheckHttpsResponse (net.https ip) "" ""
    Socks5 := CheckSocket5Response (net.socks5 ip)
    Anonymity := CheckProxyAnonymity (net.echo ip) }

/-- A network on which exactly the candidates `a` and `c` answer the fast probe,
for the examples. -/
def sampleNet : Network :=
  { fast := fun ip => ⟨false, false, false, false, if ip = "a" ∨ ip = "c" then 200 else 502⟩
    https := fun _ => ⟨false, false, [], true⟩
    socks5 := fun _ => ⟨false, false, [5, 0], false⟩
    echo := fun _ => ⟨false, false, true, ""⟩ }

/-- The invariant of the gate: every permit taken belongs to a task that is
running or leaving, and no more than `cap` permits are taken. -/
def GateInv (cap : Nat) (g : Gate) : Prop :=
  g.running + g.leaving = g.sem ∧ g.sem ≤ cap

/-- The bytes of an ASCII text. -/
def asciiBytes (s : String) : List Nat := s.data.map Char.toNat

/-- A connection on which the proxy refuses the tunnel with a `403` reply whose
headers carry the digits `200`, for the examples. -/
def refusedConn : Conn :=
  ⟨false, false, asciiBytes "HTTP/1.1 403 Forbidden\r\nContent-Length: 200\r\n\r\n", false⟩

/-- A connection on which the proxy refuses the tunnel with a bare `403` reply,
for the examples. -/
def forbiddenConn : Conn :=
  ⟨false, false, asciiBytes "HTTP/1.1 403 Forbidden\r\n\r\n", false⟩

/-- An echo fetch that went through and delivered `body`, for the examples. -/
def fetched (body : String) : EchoFetch := ⟨false, false, false, body⟩

/-- The matcher moved from `s` to `t` over the text `w`, leaving the capture
groups alone. -/
def Adv (s t : MState) (w : List Char) : Prop :=
  s.rest = w ++ t.rest ∧ t.before = w.reverse ++ s.before ∧ t.caps = s.caps

/-- The expression `r`, at any position, matches exactly the texts of `L`. -/
def Accepts (r : Re) (L : List Char → Prop) : Prop :=
  ∀ s t, t ∈ r.run s ↔ ∃ w, L w ∧ Adv s t w

/-- A non-empty run of digits. -/
def DigitRun (w : List Char) : Prop := w ≠ [] ∧ ∀ c ∈ w, c.isDigit = true

/-- Four digit runs joined by dots (the runs are of any length and value). -/
def LooseQuad (q : List Char) : Prop :=
  ∃ a b c d, q = a ++ '.' :: (b ++ '.' :: (c ++ '.' :: d)) ∧
    DigitRun a ∧ DigitRun b ∧ DigitRun c ∧ DigitRun d

/-- A dotted quad, a comma right after it, at least one character on the same
line, and a second dotted quad. -/
def LeakWord (w : List Char) : Prop :=
  ∃ q1 mid q2, w = q1 ++ ',' :: (mid ++ q2) ∧ LooseQuad q1 ∧ LooseQuad q2 ∧
    mid ≠ [] ∧ ∀ c ∈ mid, c ≠ '\n'

/-- The text holds a `LeakWord` somewhere. -/
def LeakShape (l : List Char) : Prop :=
  ∃ pre w post, l = pre ++ (w ++ post) ∧ LeakWord w

/-- A page view without any table, for the examples. -/
def noTables : Goquery := ⟨fun _ => some []⟩

/-- A page view that reports one row with an address cell and a port cell, whatever
the page, for the examples. -/
def oneRow : Goquery := ⟨fun _ => some [["7.7.7.7", "3128"]]⟩

/-- The texts of the successive matches of the direct pattern in a page. -/
def directMatches (html : String) : List String :=
  (RegexMatchAllGroups directPattern html).map (fun m => m.headD "")

/-- Every text of a list, twice in a row. -/
def twice (ms : List String) : List String := ms.flatMap (fun m => [m, m])

/-! ## Reading back the stored candidates (`LoadPreviousIPs`) -/

/-- Go `strings.HasSuffix(s, suf)`. -/
def strHasSuffix (s suf : String) : Bool := suf.data.reverse.isPrefixOf s.data.reverse

/-- The characters that `strings.Trim` removes for lancet's `DefaultTrimChars`:
tab, vertical tab, line feed, carriage return, form feed, blank and NUL, and,
because the set also holds the two stray bytes `0x85` and `0xA0`, the replacement
character `U+FFFD`. -/
def isTrimChar (c : Char) : Bool :=
  c = '\t' || c = Char.ofNat 0x0B || c = '\n' || c = '\r' || c = Char.ofNat 0x0C || c = ' ' ||
  c = Char.ofNat 0 || c = Char.ofNat 0xFFFD

/-- Go `strings.Trim` for a set of characters given as a test. -/
def trimChars (p : Char → Bool) (l : List Char) : List Char :=
  ((l.dropWhile p).reverse.dropWhile p).reverse

/-- Lancet `strutil.SplitAndTrim(s, sep)` for a separator of one character: the
pieces, trimmed, the empty ones dropped. -/
def SplitAndTrim (s : String) (sep : Char) : List String :=
  ((strSplit s sep).map (fun v => String.mk (trimChars isTrimChar v.data))).filter
    (fun v => v ≠ "")

/-- The value of a hexadecimal digit. -/
def hexVal (c : Char) : Option Nat :=
  if c.isDigit then some (c.toNat - 48)
  else if 'a' ≤ c ∧ c ≤ 'f' then some (c.toNat - 87)
  else if 'A' ≤ c ∧ c ≤ 'F' then some (c.toNat - 55)
  else none

/-- Go `utf8.ValidRune`. -/
def validRune (v : Nat) : Bool := v < 0xD800 || (0xE000 ≤ v && v ≤ 0x10FFFF)

/-- Where `strconv.Unquote` stands inside a double-quoted text: between
characters, after a backslash, inside `\x`, `\u` or `\U` with `left` digits to
come, inside an octal escape, or past the closing quote. -/
inductive UqMode where
  | plain
  | esc
  | hex (kind : Char) (left : Nat) (v : Nat)
  | oct (left : Nat) (v : Nat)
  | closed

/-- One character of `strconv.Unquote` after the opening quote: the text decoded
so far and the mode; `none` is the syntax error.  An escape `\x` or an octal
escape denotes one byte, which is kept as the character of that code. -/
def uqStep (st : List Char × UqMode) (c : Char) : Option (List Char × UqMode) :=
  match st.2 with
  | .plain =>
    if c = '"' then some (st.1, .closed)
    else if c = '\n' then none
    else if c = '\\' then some (st.1, .esc)
    else some (st.1 ++ [c], .plain)
  | .esc =>
    if c = 'a' then some (st.1 ++ [Char.ofNat 7], .plain)
    else if c = 'b' then some (st.1 ++ [Char.ofNat 8], .plain)
    else if c = 'f' then some (st.1 ++ [Char.ofNat 12], .plain)
    else if c = 'n' then some (st.1 ++ ['\n'], .plain)
    else if c = 'r' then some (st.1 ++ ['\r'], .plain)
    else if c = 't' then some (st.1 ++ ['\t'], .plain)
    else if c = 'v' then some (st.1 ++ [Char.ofNat 11], .plain)
    else if c = '\\' then some (st.1 ++ ['\\'], .plain)
    else if c = '"' then some (st.1 ++ ['"'], .plain)
    else if c = 'x' then some (st.1, .hex 'x' 2 0)
    else if c = 'u' then some (st.1, .hex 'u' 4 0)
    else if c = 'U' then some (st.1, .hex 'U' 8 0)
    else if '0' ≤ c ∧ c ≤ '7' then some (st.1, .oct 2 (c.toNat - 48))
    else none
  | .hex kind left v =>
    match hexVal c with
    | none => none
    | some x =>
      if left ≤ 1 then
        if kind = 'x' then some (st.1 ++ [Char.ofNat (v * 16 + x)], .plain)
        else if validRune (v * 16 + x) then some (st.1 ++ [Char.ofNat (v * 16 + x)], .plain)
        else none
      else some (st.1, .hex kind (left - 1) (v * 16 + x))
  | .oct left v =>
    if '0' ≤ c ∧ c ≤ '7' then
      if left ≤ 1 then
        if 255 < v * 8 + (c.toNat - 48) then none
        else some (st.1 ++ [Char.ofNat (v * 8 + (c.toNat - 48))], .plain)
      else some (st.1, .oct (left - 1) (v * 8 + (c.toNat - 48)))
    else none
  | .closed => none

/-- The characters after the opening quote, one by one. -/
def uqRun : List Char × UqMode → List Char → Option (List Char × UqMode)
  | st, [] => some st
  | st, c :: cs =>
    match uqStep st c with
    | some st' => uqRun st' cs
    | none => none

/-- Go `strconv.Unquote` on a text that starts with a double quote (the one call
guards it with `HasPrefix`): the decoded text when the text is one double-quoted
Go string, `none` for the error result. -/
def Unquote (s : String) : Option String :=
  match s.data with
  | '"' :: body =>
    match uqRun ([], .plain) body with
    | some (out, .closed) => some ⟨out⟩
    | _ => none
  | _ => none

/-- A value decoded from JSON text; a number keeps the text of its literal. -/
inductive JVal where
  | null
  | bool (b : Bool)
  | num (lit : List Char)
  | str (s : List Char)
  | arr (items : List JVal)
  | obj (members : List (List Char × JVal))

/-- What the decoding of a line needs from Go beyond the text level:
`formatV v` is `fmt.Sprintf("%v", v)` for a decoded value, and `floatFits lit`
tells whether `strconv.ParseFloat` takes the number literal into a `float64`
without a range error. -/
structure GoValues where
  formatV : JVal → String
  floatFits : List Char → Bool

/-- The tokens of JSON text. -/
inductive Tok where
  | lbrace
  | rbrace
  | lbrack
  | rbrack
  | colon
  | comma
  | str (s : List Char)
  | num (lit : List Char)
  | word (v : JVal)

/-- The states of the scanner inside a number literal. -/
inductive NumSt where
  | neg
  | zero
  | int
  | dot
  | frac
  | exp
  | expSign
  | expDigits
deriving DecidableEq

/-- Where the scanner stands: between tokens; inside a string (`pend` holds a high
surrogate of a `\u` escape that waits for its low half); after a backslash; inside
a `\u` escape with `k` digits read; inside a number; inside `true`, `false` or
`null` with the characters `more` still to come. -/
inductive Lex where
  | idle
  | str (acc : List Char) (pend : Option Nat)
  | esc (acc : List Char)
  | uni (acc : List Char) (pend : Option Nat) (k : Nat) (v : Nat)
  | num (acc : List Char) (st : NumSt)
  | word (more : List Char) (v : JVal)

/-- The text decoded so far, after the replacement character for a high surrogate
that found no low half. -/
def flushPend (acc : List Char) (pend : Option Nat) : List Char :=
  match pend with
  | some _ => acc ++ [Char.ofNat 0xFFFD]
  | none => acc

/-- The end of a `\u` escape of value `v`: a low surrogate completes a waiting
high one, a high surrogate waits, any other surrogate becomes the replacement
character. -/
def uniDone (acc : List Char) (pend : Option Nat) (v : Nat) : Lex :=
  match pend with
  | some hi =>
    if 0xDC00 ≤ v ∧ v < 0xE000 then
      .str (acc ++ [Char.ofNat (0x10000 + (hi - 0xD800) * 0x400 + (v - 0xDC00))]) none
    else if 0xD800 ≤ v ∧ v < 0xDC00 then .str (acc ++ [Char.ofNat 0xFFFD]) (some v)
    else .str (acc ++ [Char.ofNat 0xFFFD, Char.ofNat v]) none
  | none =>
    if 0xD800 ≤ v ∧ v < 0xDC00 then .str acc (some v)
    else if 0xDC00 ≤ v ∧ v < 0xE000 then .str (acc ++ [Char.ofNat 0xFFFD]) none
    else .str (acc ++ [Char.ofNat v]) none

/-- A character that starts a token, or white space between tokens; the tokens
are collected last first. -/
def idleStep (toks : List Tok) (c : Char) : Option (List Tok × Lex) :=
  if c = ' ' ∨ c = '\t' ∨ c = '\r' ∨ c = '\n' then some (toks, .idle)
  else if c = '{' then some (.lbrace :: toks, .idle)
  else if c = '}' then some (.rbrace :: toks, .idle)
  else if c = '[' then some (.lbrack :: toks, .idle)
  else if c = ']' then some (.rbrack :: toks, .idle)
  else if c = ':' then some (.colon :: toks, .idle)
  else if c = ',' then some (.comma :: toks, .idle)
  else if c = '"' then some (toks, .str [] none)
  else if c = '-' then some (toks, .num [c] .neg)
  else if c = '0' then some (toks, .num [c] .zero)
  else if '1' ≤ c ∧ c ≤ '9' then some (toks, .num [c] .int)
  else if c = 't' then some (toks, .word ['r', 'u', 'e'] (.bool true))
  else if c = 'f' then some (toks, .word ['a', 'l', 's', 'e'] (.bool false))
  else if c = 'n' then some (toks, .word ['u', 'l', 'l'] .null)
  else none

/-- The next state inside a number literal, `none` when the character does not
continue the literal. -/
def numNext (st : NumSt) (c : Char) : Option NumSt :=
  match st with
  | .neg => if c = '0' then some .zero else if '1' ≤ c ∧ c ≤ '9' then some .int else none
  | .zero => if c = '.' then some .dot else if c = 'e' ∨ c = 'E' then some .exp else none
  | .int =>
    if c.isDigit then some .int
    else if c = '.' then some .dot
    else if c = 'e' ∨ c = 'E' then some .exp
    else none
  | .dot => if c.isDigit then some .frac else none
  | .frac => if c.isDigit then some .frac else if c = 'e' ∨ c = 'E' then some .exp else none
  | .exp =>
    if c = '+' ∨ c = '-' then some .expSign else if c.isDigit then some .expDigits else none
  | .expSign => if c.isDigit then some .expDigits else none
  | .expDigits => if c.isDigit then some .expDigits else none

/-- The states in which a number literal may end. -/
def NumSt.final (st : NumSt) : Bool :=
  match st with
  | .zero | .int | .frac | .expDigits => true
  | _ => false

/-- The character after a backslash inside a string. -/
def escStep (toks : List Tok) (acc : List Char) (c : Char) : Option (List Tok × Lex) :=
  if c = '"' ∨ c = '\\' ∨ c = '/' then some (toks, .str (acc ++ [c]) none)
  else if c = 'b' then some (toks, .str (acc ++ [Char.ofNat 8]) none)
  else if c = 'f' then some (toks, .str (acc ++ [Char.ofNat 12]) none)
  else if c = 'n' then some (toks, .str (acc ++ ['\n']) none)
  else if c = 'r' then some (toks, .str (acc ++ ['\r']) none)
  else if c = 't' then some (toks, .str (acc ++ ['\t']) none)
  else if c = 'u' then some (toks, .uni acc none 1 0)
  else none

/-- One character of the scanner. -/
def lexStep (lib : GoValues) (st : List Tok × Lex) (c : Char) : Option (List Tok × Lex) :=
  match st.2 with
  | .idle => idleStep st.1 c
  | .str acc pend =>
    if c = '"' then some (.str (flushPend acc pend) :: st.1, .idle)
    else if c = '\\' then some (st.1, if pend.isSome then .uni acc pend 0 0 else .esc acc)
    else if c.toNat < 0x20 then none
    else some (st.1, .str (flushPend acc pend ++ [c]) none)
  | .esc acc => escStep st.1 acc c
  | .uni acc pend k v =>
    if k = 0 then
      if c = 'u' then some (st.1, .uni acc pend 1 0)
      else escStep st.1 (flushPend acc pend) c
    else
      match hexVal c with
      | none => none
      | some x =>
        if k = 4 then some (st.1, uniDone acc pend (v * 16 + x))
        else some (st.1, .uni acc pend (k + 1) (v * 16 + x))
  | .num acc nst =>
    match numNext nst c with
    | some nst' => some (st.1, .num (acc ++ [c]) nst')
    | none =>
      if nst.final ∧ lib.floatFits acc then idleStep (.num acc :: st.1) c else none
  | .word more v =>
    match more with
    | [] => none
    | [d] => if c = d then some (.word v :: st.1, .idle) else none
    | d :: ds => if c = d then some (st.1, .word ds v) else none

/-- The scanner over a text, character by character. -/
def lexRun (lib : GoValues) : List Tok × Lex → List Char → Option (List Tok × Lex)
  | st, [] => some st
  | st, c :: cs =>
    match lexStep lib st c with
    | some st' => lexRun lib st' cs
    | none => none

/-- The end of the text: a number may end there, a string or a word may not. -/
def lexFinish (lib : GoValues) (st : List Tok × Lex) : Option (List Tok) :=
  match st.2 with
  | .idle => some st.1.reverse
  | .num acc nst => if nst.final ∧ lib.floatFits acc then some (Tok.num acc :: st.1).reverse else none
  | _ => none

/-- The tokens of a text, `none` when a token is malformed. -/
def tokenize (lib : GoValues) (cs : List Char) : Option (List Tok) :=
  match lexRun lib ([], .idle) cs with
  | some st => lexFinish lib st
  | none => none

/-- What the token parser is reading: a value, the rest of an array whose items
so far are `acc`, or the rest of an object whose members so far are `acc`. -/
inductive Want where
  | value
  | items (acc : List JVal)
  | members (acc : List (List Char × JVal))

/-- The grammar of JSON over tokens: the value read and the tokens left.  Every
call takes a token or is followed by one that does, so a budget of twice the
number of tokens, plus one, is never used up. -/
def parseTok : Nat → Want → List Tok → Option (JVal × List Tok)
  | 0, _, _ => none
  | fuel + 1, .value, t :: ts =>
    match t with
    | .str s => some (.str s, ts)
    | .num lit => some (.num lit, ts)
    | .word v => some (v, ts)
    | .lbrack =>
      match ts with
      | .rbrack :: rest => some (.arr [], rest)
      | _ => parseTok fuel (.items []) ts
    | .lbrace =>
      match ts with
      | .rbrace :: rest => some (.obj [], rest)
      | _ => parseTok fuel (.members []) ts
    | _ => none
  | _ + 1, .value, [] => none
  | fuel + 1, .items acc, ts =>
    match parseTok fuel .value ts with
    | some (v, .comma :: rest) => parseTok fuel (.items (acc ++ [v])) rest
    | some (v, .rbrack :: rest) => some (.arr (acc ++ [v]), rest)
    | _ => none
  | fuel + 1, .members acc, ts =>
    match ts with
    | .str key :: .colon :: ts' =>
      match parseTok fuel .value ts' with
      | some (v, .comma :: rest) => parseTok fuel (.members (acc ++ [(key, v)])) rest
      | some (v, .rbrace :: rest) => some (.obj (acc ++ [(key, v)]), rest)
      | _ => none
    | _ => none

/-- The value that a JSON text denotes, `none` when the text is not valid JSON
(the limit of Go's scanner on the depth of nesting, 10000, is not modelled). -/
def jsonDecode (lib : GoValues) (text : String) : Option JVal :=
  match tokenize lib text.data with
  | some toks =>
    match parseTok (2 * toks.length + 1) .value toks with
    | some (v, []) => some v
    | _ => none
  | none => none

/-- Go `json.Unmarshal(text, &m)` for `m` of type `map[string]interface{}`: the
members of the object, last first, so that a lookup finds the value a repeated
key ends up with; the literal `null` leaves the map empty; `none` is the error
result. -/
def jsonUnmarshal (lib : GoValues) (text : String) : Option (List (List Char × JVal)) :=
  match jsonDecode lib text with
  | some (.obj members) => some members.reverse
  | some .null => some []
  | _ => none

/-- The line pattern `ipRegex` of `LoadPreviousIPs`,
`"ip"\s*:\s*"((?:\d{1,3}\.){3}\d{1,3}(?::\d{1,5})?)"`. -/
def storedIpPattern : Pattern :=
  ⟨reSeq [reLit "\"ip\"", .rep reSpace 0 none true, reChar ':', .rep reSpace 0 none true,
    reChar '"',
    .group 1 (.seq reDottedQuad
      (.rep (.seq (reChar ':') (.rep reDigit 1 (some 5) true)) 0 (some 1) true)),
    reChar '"'], 1⟩

/-- The line pattern `portRegex` of `LoadPreviousIPs`, `"port"\s*:\s*"?(\d{1,5})"?`. -/
def storedPortPattern : Pattern :=
  ⟨reSeq [reLit "\"port\"", .rep reSpace 0 none true, reChar ':', .rep reSpace 0 none true,
    .rep (reChar '"') 0 (some 1) true, .group 1 (.rep reDigit 1 (some 5) true),
    .rep (reChar '"') 0 (some 1) true], 1⟩

/-- The line pattern `ipPortRegex` of `LoadPreviousIPs`,
`^((?:\d{1,3}\.){3}\d{1,3}:\d{1,5})$`. -/
def bareLinePattern : Pattern :=
  ⟨reSeq [.bol, .group 1 (reSeq [reDottedQuad, reChar ':', .rep reDigit 1 (some 5) true]),
    .eol], 1⟩

/-- Go `(*Regexp).FindStringSubmatch` for a pattern with `n` capture groups: the
submatches of the leftmost match, the empty list (`nil`) without one. -/
def Re.findStringSubmatch (r : Re) (n : Nat) (str : String) : List String :=
  match r.find [] str.data with
  | some (s, t) => submatches n s t
  | none => []

/-- Go `(*Regexp).MatchString`. -/
def Re.matchString (r : Re) (str : String) : Bool := (r.find [] str.data).isSome

/-- The JSON branch of the line loop of `LoadPreviousIPs`: `some out` when the
line decoded to an object whose `ip` is a string (the loop then appends `out`
and moves on to the next line), `none` when the loop goes on to the patterns. -/
def jsonBranch (lib : GoValues) (processedLine : String) : Option (List String) :=
  match jsonUnmarshal lib processedLine with
  | some ipInfo =>
    match ipInfo.lookup "ip".data with
    | some (.str ipVal) =>
      if strContains ⟨ipVal⟩ ":" then some [⟨ipVal⟩]
      else
        match ipInfo.lookup "port".data with
        | some portVal => some [⟨ipVal⟩ ++ ":" ++ lib.formatV portVal]
        | none => some []
    | _ => none
  | none => none

/-- The pattern branch of the line loop, taken when the JSON branch gave up. -/
def regexBranch (processedLine : String) : List String :=
  match storedIpPattern.re.findStringSubmatch storedIpPattern.groups processedLine with
  | _ :: ipValue :: _ =>
    if !strContains ipValue ":" then
      match storedPortPattern.re.findStringSubmatch storedPortPattern.groups processedLine with
      | _ :: port :: _ => [ipValue ++ ":" ++ port]
      | _ => [ipValue]
    else [ipValue]
  | _ => []

/-- The body of the line loop of `LoadPreviousIPs`: the candidates that one line
of the file adds. -/
def ingestLine (lib : GoValues) (line : String) : List String :=
  let line := strTrimSpace line
  if line = "" then []
  else if strContains line "\x7b" && strContains line "\x7d" then
    let processedLine :=
      if strHasPrefix line "\"" && strHasSuffix line "\"" then
        match Unquote line with
        | some unquoted => unquoted
        | none => line
      else line
    match jsonBranch lib processedLine with
    | some out => out
    | none => regexBranch processedLine
  else if bareLinePattern.re.matchString line then [line]
  else []

/-- The function `LoadPreviousIPs` on the content of the history file, `none`
when no file is found or it cannot be read. -/
def LoadPreviousIPs (lib : GoValues) (file : Option String) : List String :=
  match file with
  | none => []
  | some content => (SplitAndTrim content '\n').flatMap (ingestLine lib)

/-- Between one and `n` digits. -/
def DigitsUpTo (n : Nat) (w : List Char) : Prop :=
  w ≠ [] ∧ w.length ≤ n ∧ ∀ c ∈ w, c.isDigit = true

/-- A text of the shape IPv4:port: four groups of 1 to 3 digits joined by dots, a
colon, 1 to 5 digits. -/
def EndpointShape (s : String) : Prop :=
  ∃ a b c d p : List Char,
    s.data = a ++ '.' :: (b ++ '.' :: (c ++ '.' :: (d ++ ':' :: p))) ∧
      DigitsUpTo 3 a ∧ DigitsUpTo 3 b ∧ DigitsUpTo 3 c ∧ DigitsUpTo 3 d ∧ DigitsUpTo 5 p

/-- A character that `json.Marshal` writes into a string as it is. -/
def isPlainChar (c : Char) : Bool :=
  decide (0x20 ≤ c.toNat) && c != '"' && c != '\\' && c != '<' && c != '>' && c != '&' &&
    c != Char.ofNat 0x2028 && c != Char.ofNat 0x2029

/-- A text made of plain characters. -/
def PlainText (s : String) : Prop := ∀ c ∈ s.data, isPlainChar c = true

/-- The JSON text of a boolean. -/
def boolJson (b : Bool) : String := if b then "true" else "false"

/-- The line that the run writes for a record, lancet `convertor.ToJson` of the
`IpInfo` value, when the two texts of the record are plain. -/
def recordJson (r : IpInfo) : String :=
  "\x7b\"ip\":\"" ++ r.IP ++ "\",\"http\":" ++ boolJson r.Http ++ ",\"https\":" ++
    boolJson r.Https ++ ",\"socks5\":" ++ boolJson r.Socks5 ++ ",\"anonymity\":\"" ++
    r.Anonymity ++ "\"\x7d"

/-- The characters of a text with a backslash put before every double quote and
every backslash. -/
def escapeQuoted : List Char → List Char
  | [] => []
  | c :: cs =>
    if c = '"' ∨ c = '\\' then '\\' :: c :: escapeQuoted cs else c :: escapeQuoted cs

/-- A text wrapped in one more layer of string quoting, its inner quotes escaped. -/
def quoteWrap (t : String) : String := ⟨'"' :: (escapeQuoted t.data ++ ['"'])⟩

/-- Library values for the examples: numbers and strings print as their text. -/
def sampleValues : GoValues :=
  ⟨fun v =>
    match v with
    | .num lit => ⟨lit⟩
    | .str s => ⟨s⟩
    | _ => "",
   fun _ => true⟩

/-- The characters of an endpoint text lie between `.` and `:`. -/
def EndpointChar (c : Char) : Prop := 46 ≤ c.toNat ∧ c.toNat ≤ 58

/-- The expression `r`, at any position, matches every text of `L`. -/
def Admits (r : Re) (L : List Char → Prop) : Prop :=
  ∀ s t w, L w → Adv s t w → t ∈ r.run s

/-- The texts of the shape IPv4:port, as character lists. -/
def EndpointWord (w : List Char) : Prop :=
  ∃ a b c d p : List Char,
    w = a ++ '.' :: (b ++ '.' :: (c ++ '.' :: (d ++ ':' :: p))) ∧
      DigitsUpTo 3 a ∧ DigitsUpTo 3 b ∧ DigitsUpTo 3 c ∧ DigitsUpTo 3 d ∧ DigitsUpTo 5 p

/-- Characters that a JSON string holds as they are. -/
def JsonPlain (l : List Char) : Prop :=
  ∀ c ∈ l, c ≠ '"' ∧ c ≠ '\\' ∧ ¬ c.toNat < 0x20

/-- The content of a history file: every line followed by a line feed, the way
`Output` writes them. -/
def joinLines (ls : List String) : String := ⟨ls.flatMap (fun l => l.data ++ ['\n'])⟩

/-- A line that `SplitAndTrim` hands on as it is: not empty, without a line feed,
and with no character of the trim set at either end. -/
def StableLine (l : String) : Prop :=
  '\n' ∉ l.data ∧ ∃ (x y : Char) (m m' : List Char), l.data = x :: m ∧ l.data = m' ++ [y] ∧
    isTrimChar x = false ∧ isTrimChar y = false

/-! ## The extractor cascade -/

theorem length_eq_zero_iff_nil {α : Type} (l : List α) : l.length = 0 ↔ l = [] :=
  List.length_eq_zero

/-- C1. `ParseURLs` returns the output of the first of the direct-pattern scan,
`parseFromTable` and `parseFromJson` that is non-empty, and the empty list when
all three are empty; when the direct-pattern scan finds something the result is
its output whatever the other two strategies would give. -/
theorem ParseURLs_first_nonempty (gq : Goquery) (html : String) :
    ParseURLs gq html =
        (if directScan html ≠ [] then directScan html
         else if parseFromTable gq html ≠ [] then parseFromTable gq html
         else parseFromJson html) ∧
      (directScan html = [] → parseFromTable gq html = [] → parseFromJson html = [] →
        ParseURLs gq html = []) ∧
      (directScan html ≠ [] → ∀ gq' : Goquery, ParseURLs gq' html = directScan html) := by
  refine ⟨?_, ?_, ?_⟩
  · unfold ParseURLs
    by_cases h1 : directScan html = []
    · by_cases h2 : parseFromTable gq html = []
      · simp [h1, h2]
      · simp [h1, h2, length_eq_zero_iff_nil]
    · simp [h1, length_eq_zero_iff_nil]
  · intro h1 h2 h3
    unfold ParseURLs
    simp [h1, h2, h3]
  · intro h1 gq'
    unfold ParseURLs
    simp [h1, length_eq_zero_iff_nil]

/-- C1, an instance: on a page where the direct pattern matches, a table row that
the structured-row scan would accept adds nothing. -/
theorem ParseURLs_first_nonempty_witness :
    directScan "10.0.0.1:8080 <table><tr><td>7.7.7.7<td>3128" ≠ [] ∧
      parseFromTable oneRow "10.0.0.1:8080 <table><tr><td>7.7.7.7<td>3128" = ["7.7.7.7:7"] ∧
      ParseURLs oneRow "10.0.0.1:8080 <table><tr><td>7.7.7.7<td>3128" =
        directScan "10.0.0.1:8080 <table><tr><td>7.7.7.7<td>3128" :=
  ⟨by decide, by decide,
    (ParseURLs_first_nonempty noTables "10.0.0.1:8080 <table><tr><td>7.7.7.7<td>3128").2.2
      (by decide) oneRow⟩

/-! ## Validation in strategies 2 and 3 -/

theorem firstValidPort_cases (port : String) (ms : List (List String)) :
    firstValidPort port ms = port ∨ portInRange (firstValidPort port ms) = true := by
  induction ms with
  | nil => exact Or.inl rfl
  | cons m more ih =>
    cases m with
    | nil => simpa [firstValidPort] using ih
    | cons candidatePort rest =>
      cases hc : ToInt candidatePort with
      | none => simpa [firstValidPort, hc] using ih
      | some portNum =>
        by_cases hr : 0 < portNum ∧ portNum ≤ 65535
        · right
          simp [firstValidPort, hc, hr, portInRange]
        · simpa [firstValidPort, hc, hr] using ih

theorem cellStep_inv (st : String × String) (text : String) (h : RowInv st) :
    RowInv (cellStep st text) := by
  obtain ⟨h1, h2⟩ := h
  refine ⟨?_, ?_⟩
  · unfold cellStep
    by_cases he : st.1 = ""
    · simp only [he, if_true]
      split
      · rename_i candidateIP _ _ _
        by_cases hv : IsIpV4 candidateIP = true
        · simp [hv]
        · simp [hv]
      · exact Or.inl rfl
    · simp only [if_neg he]
      exact h1
  · unfold cellStep
    by_cases he : st.2 = ""
    · simp only [he, if_true]
      exact firstValidPort_cases "" _
    · simp only [if_neg he]
      exact h2

theorem foldl_cellStep_inv (cells : List String) (st : String × String) (h : RowInv st) :
    RowInv (cells.foldl cellStep st) := by
  induction cells generalizing st with
  | nil => exact h
  | cons c cs ih => exact ih _ (cellStep_inv st c h)

theorem rowStep_validated (cells : List String) (s : String) (h : s ∈ rowStep cells) :
    Validated s := by
  have hinv := foldl_cellStep_inv cells ("", "") ⟨Or.inl rfl, Or.inl rfl⟩
  unfold rowStep at h
  by_cases hc : (cells.foldl cellStep ("", "")).1 ≠ "" ∧ (cells.foldl cellStep ("", "")).2 ≠ ""
  · rw [if_pos hc, List.mem_singleton] at h
    refine ⟨_, _, h, ?_, ?_⟩
    · exact hinv.1.resolve_left hc.1
    · exact hinv.2.resolve_left hc.2
  · rw [if_neg hc] at h
    simp at h

theorem parseFromTable_validated (gq : Goquery) (html s : String)
    (h : s ∈ parseFromTable gq html) : Validated s := by
  unfold parseFromTable at h
  cases hr : gq.tableRows html with
  | none => simp [hr] at h
  | some rows =>
    simp only [hr, List.mem_flatMap] at h
    obtain ⟨cells, _, hs⟩ := h
    exact rowStep_validated cells s hs

theorem jsonCandidate_validated (m : List String) (s : String) (h : s ∈ jsonCandidate m) :
    Validated s := by
  unfold jsonCandidate at h
  split at h
  · rename_i ip port _
    by_cases hv : IsIpV4 ip = true
    · cases hp : ToInt port with
      | none => simp [hv, hp] at h
      | some portNum =>
        by_cases hr : 0 < portNum ∧ portNum ≤ 65535
        · simp only [hv, hp, hr, and_self, if_true, List.mem_singleton] at h
          exact ⟨ip, port, h, hv, by simp [portInRange, hp, hr]⟩
        · simp [hv, hp, hr] at h
    · simp [hv] at h
  · simp at h

theorem parseFromJson_validated (html s : String) (h : s ∈ parseFromJson html) :
    Validated s := by
  unfold parseFromJson at h
  simp only [List.mem_flatMap] at h
  obtain ⟨m, _, hs⟩ := h
  exact jsonCandidate_validated m s hs

/-- A text with exactly one colon splits at a colon in one way only. -/
theorem split_at_colon_unique (pre post : List Char) (hpre : ':' ∉ pre) (hpost : ':' ∉ post)
    (a b : List Char) (h : a ++ ':' :: b = pre ++ ':' :: post) : a = pre ∧ b = post := by
  induction pre generalizing a with
  | nil =>
    cases a with
    | nil => simpa using h
    | cons x a' =>
      exfalso
      simp only [List.cons_append, List.nil_append, List.cons.injEq] at h
      apply hpost
      rw [← h.2]
      simp
  | cons p pre' ih =>
    cases a with
    | nil =>
      exfalso
      simp only [List.nil_append, List.cons_append, List.cons.injEq] at h
      apply hpre
      rw [← h.1]
      simp
    | cons x a' =>
      simp only [List.cons_append, List.cons.injEq] at h
      have hpre' : ':' ∉ pre' := fun hm => hpre (List.mem_cons_of_mem _ hm)
      obtain ⟨e1, e2⟩ := ih hpre' a' h.2
      exact ⟨by rw [h.1, e1], e2⟩

theorem validated_parts (s : String) (pre post : List Char) (hs : s.data = pre ++ ':' :: post)
    (hpre : ':' ∉ pre) (hpost : ':' ∉ post) (h : Validated s) :
    IsIpV4 ⟨pre⟩ = true ∧ portInRange ⟨post⟩ = true := by
  obtain ⟨ip, port, he, hv, hp⟩ := h
  have hd : ip.data ++ ':' :: port.data = pre ++ ':' :: post := by
    rw [← hs, he]
    simp [String.data_append]
  obtain ⟨e1, e2⟩ := split_at_colon_unique pre post hpre hpost _ _ hd
  have hip : ip = ⟨pre⟩ := by rw [← e1]
  have hport : port = ⟨post⟩ := by rw [← e2]
  rw [← hip, ← hport]
  exact ⟨hv, hp⟩

theorem not_validated_bad_octet : ¬ Validated "999.1.1.1:80" := by
  intro h
  have := (validated_parts "999.1.1.1:80" "999.1.1.1".data "80".data rfl (by decide) (by decide) h).1
  revert this
  decide

theorem not_validated_bad_port : ¬ Validated "10.0.0.1:70000" := by
  intro h
  have := (validated_parts "10.0.0.1:70000" "10.0.0.1".data "70000".data rfl (by decide)
    (by decide) h).2
  revert this
  decide

/-- C2, as the code has it: the direct-pattern scan does not validate, and on the
page `999.1.1.1:80` (as on `10.0.0.1:70000`) `ParseURLs` returns that text. -/
theorem ParseURLs_extracts_unvalidated :
    "999.1.1.1:80" ∈ ParseURLs noTables "999.1.1.1:80" ∧
      "10.0.0.1:70000" ∈ ParseURLs noTables "10.0.0.1:70000" := by
  constructor <;> decide

/-- C2, amended. Neither `999.1.1.1:80` nor `10.0.0.1:70000` is ever produced by
`parseFromTable` or by `parseFromJson`, and so `ParseURLs` returns neither of them
on any content where the direct-pattern scan finds nothing. -/
theorem validating_strategies_reject (gq : Goquery) (html : String) :
    ("999.1.1.1:80" ∉ parseFromTable gq html ∧ "10.0.0.1:70000" ∉ parseFromTable gq html) ∧
      ("999.1.1.1:80" ∉ parseFromJson html ∧ "10.0.0.1:70000" ∉ parseFromJson html) ∧
      (directScan html = [] →
        "999.1.1.1:80" ∉ ParseURLs gq html ∧ "10.0.0.1:70000" ∉ ParseURLs gq html) := by
  have ht1 : "999.1.1.1:80" ∉ parseFromTable gq html :=
    fun h => not_validated_bad_octet (parseFromTable_validated gq html _ h)
  have ht2 : "10.0.0.1:70000" ∉ parseFromTable gq html :=
    fun h => not_validated_bad_port (parseFromTable_validated gq html _ h)
  have hj1 : "999.1.1.1:80" ∉ parseFromJson html :=
    fun h => not_validated_bad_octet (parseFromJson_validated html _ h)
  have hj2 : "10.0.0.1:70000" ∉ parseFromJson html :=
    fun h => not_validated_bad_port (parseFromJson_validated html _ h)
  refine ⟨⟨ht1, ht2⟩, ⟨hj1, hj2⟩, ?_⟩
  intro hd
  have hP : ParseURLs gq html =
      (if parseFromTable gq html ≠ [] then parseFromTable gq html else parseFromJson html) := by
    unfold ParseURLs
    by_cases h2 : parseFromTable gq html = []
    · simp [hd, h2]
    · simp [hd, h2, length_eq_zero_iff_nil]
  rw [hP]
  by_cases h2 : parseFromTable gq html ≠ []
  · rw [if_pos h2]
    exact ⟨ht1, ht2⟩
  · rw [if_neg h2]
    exact ⟨hj1, hj2⟩

/-- C2, amended, an instance: a row and an embedded object that carry the two
texts, on a page where the direct pattern does not match. -/
theorem validating_strategies_reject_witness :
    directScan "\x7b\"host\":\"999.1.1.1\",\"port\":80\x7d \x7b\"host\":\"10.0.0.1\",\"port\":70000\x7d" = [] ∧
      "999.1.1.1:80" ∉
        ParseURLs noTables
          "\x7b\"host\":\"999.1.1.1\",\"port\":80\x7d \x7b\"host\":\"10.0.0.1\",\"port\":70000\x7d" ∧
      "10.0.0.1:70000" ∉
        ParseURLs noTables
          "\x7b\"host\":\"999.1.1.1\",\"port\":80\x7d \x7b\"host\":\"10.0.0.1\",\"port\":70000\x7d" :=
  ⟨by decide,
    (validating_strategies_reject noTables
      "\x7b\"host\":\"999.1.1.1\",\"port\":80\x7d \x7b\"host\":\"10.0.0.1\",\"port\":70000\x7d").2.2
      (by decide)⟩

/-! ## Completeness of the records of `TestProxy` -/

theorem checkFunc_IpList (net : Network) (ip : String) (st : RunState) :
    (checkFunc net ip st).IpList =
      st.IpList ++ (if isLive net ip then [recordOf net ip] else []) := by
  unfold checkFunc isLive recordOf
  by_cases hl : FastCheckHttp (net.fast ip) = true
  · simp only [hl, Bool.not_true, Bool.false_eq_true, if_false, if_true]
    split_ifs <;> rfl
  · simp [hl]

theorem runBatch_IpList (net : Network) (done : List String) (st : RunState) :
    (runBatch net done st).IpList =
      st.IpList ++ (done.filter (isLive net)).map (recordOf net) := by
  induction done generalizing st with
  | nil => simp [runBatch]
  | cons ip more ih =>
    have hstep : runBatch net (ip :: more) st = runBatch net more (checkFunc net ip st) := rfl
    rw [hstep, ih, checkFunc_IpList]
    by_cases hl : isLive net ip = true
    · simp [hl, List.filter_cons]
    · simp [hl, List.filter_cons]

theorem foldl_runBatch_IpList (net : Network) (order : Nat → List String → List String)
    (ips : List String) (idx : List Nat) (st : RunState) :
    (idx.foldl (fun st batchIndex => runBatch net (order batchIndex (batchIps ips batchIndex)) st)
        st).IpList =
      st.IpList ++
        ((idx.flatMap (fun i => order i (batchIps ips i))).filter (isLive net)).map
          (recordOf net) := by
  induction idx generalizing st with
  | nil => simp
  | cons i more ih =>
    rw [List.foldl_cons, ih, runBatch_IpList]
    simp [List.flatMap_cons, List.filter_append, List.map_append, List.append_assoc]

theorem batchIps_eq (ips : List String) (k : Nat) :
    batchIps ips k = (ips.drop (k * batchSize)).take batchSize := by
  unfold batchIps
  by_cases h : k * batchSize + batchSize > ips.length
  · simp only [h, if_true]
    rw [List.take_of_length_le (by simp), List.take_of_length_le]
    simp only [List.length_drop]
    omega
  · simp only [h, if_false]
    congr 1
    omega

theorem batches_take (ips : List String) (k : Nat) :
    (List.range k).flatMap (batchIps ips) = ips.take (k * batchSize) := by
  induction k with
  | zero => simp
  | succ k ih =>
    rw [List.range_succ, List.flatMap_append, ih, List.flatMap_singleton, batchIps_eq,
      Nat.succ_mul, List.take_add]

theorem batches_cover (ips : List String) :
    (List.range ((ips.length + batchSize - 1) / batchSize)).flatMap (batchIps ips) = ips := by
  rw [batches_take]
  apply List.take_of_length_le
  unfold batchSize
  omega

theorem testProxyRecords_perm (net : Network) (order : Nat → List String → List String)
    (ips : List String) (horder : ∀ i b, (order i b).Perm b) :
    (testProxyRecords net order ips).Perm ((ips.filter (isLive net)).map (recordOf net)) := by
  unfold testProxyRecords testProxyRun
  rw [foldl_runBatch_IpList]
  simp only [RunState.init, List.nil_append]
  apply List.Perm.map
  apply List.Perm.filter
  have hcover := batches_cover ips
  have hperm := List.Perm.flatMap_left (List.range ((ips.length + batchSize - 1) / batchSize))
    (fun i _ => horder i (batchIps ips i))
  rw [hcover] at hperm
  exact hperm

/-- C3. Whatever the probes answer and in whatever order the tasks of each batch
reach the result list, the records of `TestProxy` hold, for every candidate `c`
that passes `FastCheckHttp`, as many records with `IP = c` as `c` occurs in the
input, and no record for a candidate that fails it; so there are as many records
as live candidates, and as many returned strings when the serialisation never
fails. -/
theorem TestProxy_records_complete (toJson : IpInfo → Option String) (net : Network)
    (order : Nat → List String → List String) (ips : List String)
    (horder : ∀ i b, (order i b).Perm b) :
    (∀ c, FastCheckHttp (net.fast c) = true →
        ((testProxyRecords net order ips).filter (fun r => r.IP = c)).length = ips.count c) ∧
      (∀ c, FastCheckHttp (net.fast c) = false →
        ∀ r ∈ testProxyRecords net order ips, r.IP ≠ c) ∧
      (testProxyRecords net order ips).length =
        (ips.filter (fun c => FastCheckHttp (net.fast c))).length ∧
      ((∀ r, (toJson r).isSome = true) →
        (TestProxy toJson net order ips).length =
          (ips.filter (fun c => FastCheckHttp (net.fast c))).length) := by
  have hperm := testProxyRecords_perm net order ips horder
  have hIP : ((testProxyRecords net order ips).map IpInfo.IP).Perm (ips.filter (isLive net)) := by
    have h := hperm.map IpInfo.IP
    have hid : IpInfo.IP ∘ recordOf net = id := funext fun _ => rfl
    rwa [List.map_map, hid, List.map_id] at h
  have hlen : (testProxyRecords net order ips).length = (ips.filter (isLive net)).length := by
    simpa using hperm.length_eq
  refine ⟨?_, ?_, hlen, ?_⟩
  · intro c hc
    have hcount : ((testProxyRecords net order ips).map IpInfo.IP).count c =
        (ips.filter (isLive net)).count c := hIP.count_eq c
    have hfilter : (ips.filter (isLive net)).count c = ips.count c :=
      List.count_filter (by simpa [isLive] using hc)
    rw [← hfilter, ← hcount, List.count_eq_countP, List.countP_map,
      List.countP_eq_length_filter]
    congr 1
  · intro c hc r hr heq
    have hmem : r.IP ∈ (testProxyRecords net order ips).map IpInfo.IP :=
      List.mem_map_of_mem _ hr
    have hmem' := (hIP.mem_iff).1 hmem
    rw [List.mem_filter] at hmem'
    rw [heq] at hmem'
    have : isLive net c = true := hmem'.2
    rw [isLive, hc] at this
    exact Bool.false_ne_true this
  · intro hjson
    unfold TestProxy
    rw [List.length_filterMap_eq_countP, List.countP_eq_length_filter]
    have : (testProxyRecords net order ips).filter (fun a => (toJson a).isSome) =
        testProxyRecords net order ips := by
      apply List.filter_eq_self.2
      intro r _
      exact hjson r
    rw [this]
    exact hlen

/-- C3, an instance: three candidates of which `a` and `c` are live, finishing in
the reverse of the input order. -/
theorem TestProxy_records_complete_witness :
    (testProxyRecords sampleNet (fun _ b => b.reverse) ["a", "b", "c"]).map IpInfo.IP =
        ["c", "a"] ∧
      (testProxyRecords sampleNet (fun _ b => b.reverse) ["a", "b", "c"]).length =
        (["a", "b", "c"].filter (fun c => FastCheckHttp (sampleNet.fast c))).length :=
  ⟨by decide,
    (TestProxy_records_complete (fun _ => none) sampleNet (fun _ b => b.reverse) ["a", "b", "c"]
      (fun _ b => List.reverse_perm b)).2.2.1⟩

/-! ## The worker ceiling and the admission gate -/

/-- C4. The worker ceiling `threadNum` is `min(p * 4, n, 80)` for `p` processors
and `n` candidates. -/
theorem threadNum_eq_min (p n : Nat) : threadNum p n = min (min (p * 4) n) 80 := by
  unfold threadNum
  simp only []
  split_ifs <;> omega

theorem GateInv_step (cap : Nat) (g g' : Gate) (e : GateEvent) (hinv : GateInv cap g)
    (hstep : g.step cap e = some g') : GateInv cap g' := by
  obtain ⟨h1, h2⟩ := hinv
  cases e with
  | acquire =>
    simp only [Gate.step] at hstep
    split_ifs at hstep with hc
    cases hstep
    exact ⟨by simp only []; omega, by simp only []; omega⟩
  | finish =>
    simp only [Gate.step] at hstep
    split_ifs at hstep with hc
    cases hstep
    exact ⟨by simp only []; omega, h2⟩
  | release =>
    simp only [Gate.step] at hstep
    split_ifs at hstep with hc
    cases hstep
    exact ⟨by simp only []; omega, by simp only []; omega⟩
  | nextBatch =>
    simp only [Gate.step] at hstep
    split_ifs at hstep with hc
    cases hstep
    exact ⟨rfl, Nat.zero_le _⟩

theorem GateInv_run (cap : Nat) (evs : List GateEvent) (g g' : Gate) (hinv : GateInv cap g)
    (hrun : Gate.run cap g evs = some g') : GateInv cap g' := by
  induction evs generalizing g with
  | nil =>
    simp only [Gate.run, Option.some.injEq] at hrun
    rw [← hrun]
    exact hinv
  | cons e es ih =>
    simp only [Gate.run] at hrun
    cases hs : g.step cap e with
    | none => simp [hs] at hrun
    | some g1 =>
      simp only [hs] at hrun
      exact ih g1 (GateInv_step cap g g1 e hinv hs) hrun

/-- C5. In every state that the admission gate of `TestProxy` reaches, for `n`
candidates and `p` processors, the number of candidate tasks in flight is at most
`min(p * 4, n, 80)`, also counting the tasks of the batch that have returned and
still hold their permit. -/
theorem gate_inFlight_le (p n : Nat) (evs : List GateEvent) (g : Gate)
    (hrun : Gate.run (threadNum p n) Gate.init evs = some g) :
    g.inFlight ≤ min (min (p * 4) n) 80 ∧ g.running + g.leaving ≤ min (min (p * 4) n) 80 := by
  have hinv : GateInv (threadNum p n) g :=
    GateInv_run (threadNum p n) evs Gate.init g ⟨rfl, Nat.zero_le _⟩ hrun
  obtain ⟨h1, h2⟩ := hinv
  have hcap : threadNum p n = min (min (p * 4) n) 80 := by
    unfold threadNum
    simp only []
    split_ifs <;> omega
  unfold Gate.inFlight
  omega

/-- C5, an instance: two processors and three candidates give three permits; after
three admissions a fourth is blocked, and the state reached has three tasks in
flight. -/
theorem gate_inFlight_le_witness :
    Gate.run (threadNum 2 3) Gate.init [.acquire, .acquire, .acquire, .acquire] = none ∧
      Gate.run (threadNum 2 3) Gate.init [.acquire, .acquire, .finish, .acquire, .release, .acquire] =
        some ⟨3, 3, 0⟩ ∧
      (⟨3, 3, 0⟩ : Gate).inFlight ≤ min (min (2 * 4) 3) 80 :=
  ⟨by decide, by decide,
    (gate_inFlight_le 2 3 [.acquire, .acquire, .finish, .acquire, .release, .acquire] ⟨3, 3, 0⟩
      (by decide)).1⟩

/-! ## The SOCKS5 probe -/

/-- C6. When the connection and the greeting write succeed,
`CheckSocket5Response` is true exactly when the read reports no error, delivers
2 bytes, the first is `0x05` and the second is not `0xFF`: the reply `[0x05, 0x00]`
gives true, the reply `[0x05, 0xFF]` gives false, a reply of at most 1 byte gives
false, and a read error gives false. -/
theorem CheckSocket5Response_iff (c : Conn) (hd : c.dialErr = false) (hw : c.writeErr = false) :
    (CheckSocket5Response c = true ↔
        c.readErr = false ∧ c.readCount 2 = 2 ∧ c.readData.getD 0 0 = 0x05 ∧
          c.readData.getD 1 0 ≠ 0xFF) ∧
      (c.readErr = false → c.readData = [0x05, 0x00] → CheckSocket5Response c = true) ∧
      (c.readData = [0x05, 0xFF] → CheckSocket5Response c = false) ∧
      (c.readData.length ≤ 1 → CheckSocket5Response c = false) ∧
      (c.readErr = true → CheckSocket5Response c = false) := by
  obtain ⟨dialErr, writeErr, readData, readErr⟩ := c
  simp only at hd hw
  subst hd hw
  have hbuf : ∀ b0 b1 rest, Conn.readBuffer ⟨false, false, b0 :: b1 :: rest, readErr⟩ 2 =
      [b0, b1] := fun _ _ _ => rfl
  have hcnt : ∀ b0 b1 rest, Conn.readCount ⟨false, false, b0 :: b1 :: rest, readErr⟩ 2 = 2 := by
    intro b0 b1 rest
    simp [Conn.readCount]
  refine ⟨?_, ?_, ?_, ?_, ?_⟩
  · rcases readData with _ | ⟨b0, _ | ⟨b1, rest⟩⟩
    · simp [CheckSocket5Response, Conn.readCount]
    · simp [CheckSocket5Response, Conn.readCount]
    · cases readErr <;> simp [CheckSocket5Response, hbuf, hcnt]
  · intro he hdata
    simp only at he hdata
    subst he hdata
    decide
  · intro hdata
    simp only at hdata
    subst hdata
    cases readErr <;> decide
  · intro hlen
    simp only at hlen
    rcases readData with _ | ⟨b0, _ | ⟨b1, rest⟩⟩
    · simp [CheckSocket5Response, Conn.readCount]
    · simp [CheckSocket5Response, Conn.readCount]
    · simp at hlen
  · intro he
    simp only at he
    subst he
    simp [CheckSocket5Response]

/-- C6, an instance: the reply `[0x05, 0x00]` on a healthy connection. -/
theorem CheckSocket5Response_iff_witness :
    CheckSocket5Response ⟨false, false, [0x05, 0x00], false⟩ = true ∧
      CheckSocket5Response ⟨false, false, [0x05, 0xFF], false⟩ = false ∧
      CheckSocket5Response ⟨false, false, [0x05], false⟩ = false ∧
      CheckSocket5Response ⟨false, false, [0x05, 0x00], true⟩ = false :=
  ⟨(CheckSocket5Response_iff ⟨false, false, [0x05, 0x00], false⟩ rfl rfl).2.1 rfl rfl,
    (CheckSocket5Response_iff ⟨false, false, [0x05, 0xFF], false⟩ rfl rfl).2.2.1 rfl,
    (CheckSocket5Response_iff ⟨false, false, [0x05], false⟩ rfl rfl).2.2.2.1 (by decide),
    (CheckSocket5Response_iff ⟨false, false, [0x05, 0x00], true⟩ rfl rfl).2.2.2.2 rfl⟩

/-! ## The HTTPS probe -/

/-- C7, as the code has it: a `403` reply whose text also holds the digits `200`
makes `CheckHttpsResponse` return true. -/
theorem CheckHttpsResponse_403_true :
    strContains (httpsResponse refusedConn) "403" = true ∧
      CheckHttpsResponse refusedConn "" "" = true := by
  constructor <;> decide

/-- C7, amended. For every response text read, `CheckHttpsResponse` returns true
exactly when the text contains `200`; so a response that contains `403` and does
not contain `200` gives false. -/
theorem CheckHttpsResponse_eq_contains_200 (c : Conn) (reqDomain strC : String)
    (hd : c.dialErr = false) (hw : c.writeErr = false) (hr : c.readErr = false) :
    CheckHttpsResponse c reqDomain strC = strContains (httpsResponse c) "200" ∧
      (strContains (httpsResponse c) "403" = true →
        strContains (httpsResponse c) "200" = false →
        CheckHttpsResponse c reqDomain strC = false) := by
  have h : CheckHttpsResponse c reqDomain strC = strContains (httpsResponse c) "200" := by
    simp [CheckHttpsResponse, hd, hw, hr]
  exact ⟨h, fun _ h200 => by rw [h, h200]⟩

/-- C7, amended, an instance: a bare `403` reply. -/
theorem CheckHttpsResponse_eq_contains_200_witness :
    strContains (httpsResponse forbiddenConn) "403" = true ∧
      CheckHttpsResponse forbiddenConn "" "" = false :=
  ⟨by decide,
    (CheckHttpsResponse_eq_contains_200 forbiddenConn "" "" rfl rfl rfl).2 (by decide)
      (by decide)⟩

/-! ## The anonymity probe -/

theorem containsChars_iff_sub (pat l : List Char) :
    containsChars pat l = true ↔ pat <:+: l := by
  induction l with
  | nil =>
    simp [containsChars, List.isEmpty_iff]
  | cons c cs ih =>
    simp only [containsChars, Bool.or_eq_true, List.isPrefixOf_iff_prefix, ih]
    rw [List.infix_cons_iff]

theorem containsChars_take (pat l : List Char) (n : Nat)
    (h : containsChars pat (l.take n) = true) : containsChars pat l = true := by
  rw [containsChars_iff_sub] at h ⊢
  exact h.trans (List.IsPrefix.isInfix ( List.take_prefix n l))

theorem httpsResponse_eq (c : Conn) : httpsResponse c = bytesToString (c.readData.take 256) := by
  unfold httpsResponse Conn.readBuffer Conn.readCount
  congr 1
  apply List.ext_getElem
  · simp
    omega
  · intro i h1 h2
    simp at h1 h2
    simp [List.getD_eq_getElem?_getD, List.getElem?_take, h1.2, h1.1]

/-- C8, as the code has it: on a body without the `"url"` marker the result is the
empty string, not the text `unknown`. -/
theorem CheckProxyAnonymity_no_marker_empty :
    strContains (fetched "\x7b\"origin\":\"1.2.3.4\"\x7d").body "\"url\"" = false ∧
      CheckProxyAnonymity (fetched "\x7b\"origin\":\"1.2.3.4\"\x7d") = "" ∧
      CheckProxyAnonymity (fetched "\x7b\"origin\":\"1.2.3.4\"\x7d") ≠ "unknown" := by
  refine ⟨?_, ?_, ?_⟩ <;> decide

/-- C8, amended. For every echo body that does not contain the `"url"` marker,
`CheckProxyAnonymity` returns the empty string; hence the anonymity value of every
result is one of `transparent`, `common`, `high` and the empty string. -/
theorem CheckProxyAnonymity_values (f : EchoFetch) :
    (strContains f.body "\"url\"" = false → CheckProxyAnonymity f = "") ∧
      (strContains (echoResult f) "\"url\"" = false → CheckProxyAnonymity f = "") ∧
      (CheckProxyAnonymity f = "transparent" ∨ CheckProxyAnonymity f = "common" ∨
        CheckProxyAnonymity f = "high" ∨ CheckProxyAnonymity f = "") := by
  have hres : strContains (echoResult f) "\"url\"" = false → CheckProxyAnonymity f = "" := by
    intro h
    unfold CheckProxyAnonymity
    simp only [h, Bool.not_false, if_true]
    split_ifs <;> rfl
  refine ⟨?_, hres, ?_⟩
  · intro h
    apply hres
    cases hc : strContains (echoResult f) "\"url\"" with
    | false => rfl
    | true =>
      have := containsChars_take _ _ _ hc
      unfold strContains at h
      rw [h] at this
      exact absurd this Bool.false_ne_true
  · unfold CheckProxyAnonymity
    simp only []
    split_ifs <;> simp

/-- C8, amended, an instance: a body without the marker. -/
theorem CheckProxyAnonymity_values_witness :
    CheckProxyAnonymity (fetched "<html>busy</html>") = "" :=
  (CheckProxyAnonymity_values (fetched "<html>busy</html>")).1 (by decide)

/-! ### What the leak pattern matches -/

theorem Adv.refl (s : MState) : Adv s s [] := ⟨rfl, rfl, rfl⟩

theorem Adv.eq_of_nil {s t : MState} (h : Adv s t []) : t = s := by
  obtain ⟨h1, h2, h3⟩ := h
  cases s
  cases t
  simp only [List.nil_append, List.reverse_nil] at h1 h2 h3
  simp [h1, h2, h3]

theorem Adv.trans {s u t : MState} {w1 w2 : List Char} (h1 : Adv s u w1) (h2 : Adv u t w2) :
    Adv s t (w1 ++ w2) := by
  obtain ⟨a1, a2, a3⟩ := h1
  obtain ⟨b1, b2, b3⟩ := h2
  refine ⟨?_, ?_, ?_⟩
  · rw [a1, b1, List.append_assoc]
  · rw [b2, a2, List.reverse_append, List.append_assoc]
  · rw [b3, a3]

/-- The position in between, when `t` lies `w1 ++ w2` after `s`. -/
theorem Adv.split {s t : MState} {w1 w2 : List Char} (h : Adv s t (w1 ++ w2)) :
    ∃ u, Adv s u w1 ∧ Adv u t w2 := by
  obtain ⟨a1, a2, a3⟩ := h
  refine ⟨⟨w1.reverse ++ s.before, w2 ++ t.rest, s.caps⟩, ⟨?_, rfl, rfl⟩, ⟨rfl, ?_, a3⟩⟩
  · rw [a1, List.append_assoc]
  · rw [a2, List.reverse_append, List.append_assoc]

theorem Accepts.congr {r : Re} {L L' : List Char → Prop} (h : Accepts r L)
    (hL : ∀ w, L w ↔ L' w) : Accepts r L' := by
  intro s t
  rw [h s t]
  constructor
  · rintro ⟨w, hw, ha⟩
    exact ⟨w, (hL w).1 hw, ha⟩
  · rintro ⟨w, hw, ha⟩
    exact ⟨w, (hL w).2 hw, ha⟩

theorem accepts_chr (p : Char → Bool) :
    Accepts (.chr p) (fun w => ∃ c, w = [c] ∧ p c = true) := by
  intro s t
  obtain ⟨sb, sr, sc⟩ := s
  obtain ⟨tb, tr, tc⟩ := t
  cases sr with
  | nil =>
    simp only [Re.run, List.not_mem_nil, false_iff]
    rintro ⟨w, ⟨c, rfl, _⟩, h1, _, _⟩
    simp at h1
  | cons c cs =>
    simp only [Re.run]
    constructor
    · intro h
      by_cases hp : p c = true
      · simp only [hp, if_true, List.mem_singleton, MState.mk.injEq] at h
        obtain ⟨e1, e2, e3⟩ := h
        exact ⟨[c], ⟨c, rfl, hp⟩, by simp [e2], by simp [e1], e3⟩
      · simp [hp] at h
    · rintro ⟨w, ⟨d, rfl, hd⟩, h1, h2, h3⟩
      simp only [List.singleton_append, List.cons.injEq] at h1
      simp only [List.reverse_singleton, List.singleton_append] at h2
      simp only at h3
      obtain ⟨e1, e2⟩ := h1
      subst e1
      simp [hd, h2, e2, h3]

theorem accepts_seq {a b : Re} {La Lb : List Char → Prop} (ha : Accepts a La)
    (hb : Accepts b Lb) :
    Accepts (.seq a b) (fun w => ∃ w1 w2, w = w1 ++ w2 ∧ La w1 ∧ Lb w2) := by
  intro s t
  simp only [Re.run, List.mem_flatMap]
  constructor
  · rintro ⟨u, hu, ht⟩
    obtain ⟨w1, h1, a1⟩ := (ha s u).1 hu
    obtain ⟨w2, h2, a2⟩ := (hb u t).1 ht
    exact ⟨w1 ++ w2, ⟨w1, w2, rfl, h1, h2⟩, a1.trans a2⟩
  · rintro ⟨w, ⟨w1, w2, rfl, h1, h2⟩, hadv⟩
    obtain ⟨u, a1, a2⟩ := hadv.split
    exact ⟨u, (ha s u).2 ⟨w1, h1, a1⟩, (hb u t).2 ⟨w2, h2, a2⟩⟩

theorem mem_repExact_chr (p : Char → Bool) (n : Nat) (s t : MState) :
    t ∈ repExact (fun u => (Re.chr p).run u) n s ↔
      ∃ w, w.length = n ∧ (∀ c ∈ w, p c = true) ∧ Adv s t w := by
  induction n generalizing s with
  | zero =>
    simp only [repExact, List.mem_singleton, List.length_eq_zero]
    constructor
    · rintro rfl
      exact ⟨[], rfl, by simp, Adv.refl _⟩
    · rintro ⟨w, rfl, _, h⟩
      exact h.eq_of_nil
  | succ n ih =>
    simp only [repExact, List.mem_flatMap]
    constructor
    · rintro ⟨u, hu, ht⟩
      obtain ⟨w1, ⟨c, rfl, hc⟩, a1⟩ := (accepts_chr p s u).1 hu
      obtain ⟨w2, hlen, hall, a2⟩ := (ih u).1 ht
      refine ⟨[c] ++ w2, by simp [hlen], ?_, a1.trans a2⟩
      intro d hd
      simp only [List.singleton_append, List.mem_cons] at hd
      rcases hd with rfl | hd
      · exact hc
      · exact hall d hd
    · rintro ⟨w, hlen, hall, hadv⟩
      cases w with
      | nil => simp at hlen
      | cons c w' =>
        have hadv' : Adv s t ([c] ++ w') := hadv
        obtain ⟨u, a1, a2⟩ := hadv'.split
        refine ⟨u, (accepts_chr p s u).2 ⟨[c], ⟨c, rfl, hall c (by simp)⟩, a1⟩, ?_⟩
        exact (ih u).2 ⟨w', by simpa using hlen, fun d hd => hall d (by simp [hd]), a2⟩

theorem mem_repUpTo (step : MState → List MState) (greedy : Bool) (n : Nat) (s t : MState) :
    t ∈ repUpTo step greedy n s ↔ ∃ k, k ≤ n ∧ t ∈ repExact step k s := by
  induction n generalizing s with
  | zero =>
    simp only [repUpTo, List.mem_singleton, Nat.le_zero_eq]
    constructor
    · rintro rfl
      exact ⟨0, rfl, by simp [repExact]⟩
    · rintro ⟨k, rfl, h⟩
      simpa [repExact] using h
  | succ n ih =>
    have key : t ∈ repUpTo step greedy (n + 1) s ↔
        t = s ∨ ∃ u, u ∈ step s ∧ t ∈ repUpTo step greedy n u := by
      cases greedy <;> simp [repUpTo, or_comm]
    rw [key]
    constructor
    · rintro (rfl | ⟨u, hu, ht⟩)
      · exact ⟨0, Nat.zero_le _, by simp [repExact]⟩
      · obtain ⟨k, hk, hk'⟩ := (ih u).1 ht
        exact ⟨k + 1, Nat.succ_le_succ hk, by
          simp only [repExact, List.mem_flatMap]
          exact ⟨u, hu, hk'⟩⟩
    · rintro ⟨k, hk, ht⟩
      cases k with
      | zero =>
        left
        simpa [repExact] using ht
      | succ k =>
        right
        simp only [repExact, List.mem_flatMap] at ht
        obtain ⟨u, hu, ht'⟩ := ht
        exact ⟨u, hu, (ih u).2 ⟨k, Nat.le_of_succ_le_succ hk, ht'⟩⟩

theorem run_rep_unbounded (r : Re) (lo : Nat) (greedy : Bool) (s : MState) :
    (Re.rep r lo none greedy).run s =
      (repExact (fun t => r.run t) lo s).flatMap (fun t =>
        repUpTo (fun u => r.run u) greedy t.rest.length t) := by
  rw [Re.run]

theorem accepts_rep_chr (p : Char → Bool) (lo : Nat) (greedy : Bool) :
    Accepts (.rep (.chr p) lo none greedy)
      (fun w => lo ≤ w.length ∧ ∀ c ∈ w, p c = true) := by
  intro s t
  rw [run_rep_unbounded]
  simp only [List.mem_flatMap, mem_repUpTo, mem_repExact_chr]
  constructor
  · rintro ⟨u, ⟨w1, hlen1, hall1, a1⟩, k, _, w2, _, hall2, a2⟩
    refine ⟨w1 ++ w2, ⟨by simp [hlen1], ?_⟩, a1.trans a2⟩
    intro c hc
    rcases List.mem_append.1 hc with h | h
    · exact hall1 c h
    · exact hall2 c h
  · rintro ⟨w, ⟨hlo, hall⟩, hadv⟩
    have hw : w = w.take lo ++ w.drop lo := (List.take_append_drop lo w).symm
    rw [hw] at hadv
    obtain ⟨u, a1, a2⟩ := hadv.split
    refine ⟨u, ⟨w.take lo, by simp [hlo], fun c hc => hall c (List.mem_of_mem_take hc), a1⟩,
      (w.drop lo).length, ?_, w.drop lo, rfl, fun c hc => hall c (List.mem_of_mem_drop hc), a2⟩
    rw [a2.1]
    simp

theorem mem_run_group (i : Nat) (r : Re) (s t : MState) :
    t ∈ (Re.group i r).run s ↔
      ∃ t0, t0 ∈ r.run s ∧ t = { t0 with caps := (i, consumed s t0) :: t0.caps } := by
  rw [Re.run, List.mem_map]
  constructor
  · rintro ⟨t0, h0, rfl⟩
    exact ⟨t0, h0, rfl⟩
  · rintro ⟨t0, h0, rfl⟩
    exact ⟨t0, h0, rfl⟩

theorem consumed_of_adv {s t : MState} {w : List Char} (h : Adv s t w) : consumed s t = w := by
  unfold consumed
  rw [h.1]
  apply List.take_left'
  simp

theorem find_some_run (r : Re) (rest before : List Char) (s t : MState)
    (h : r.find before rest = some (s, t)) : t ∈ r.run s ∧ ∃ pre, rest = pre ++ s.rest := by
  induction rest generalizing before with
  | nil =>
    simp only [Re.find, Option.map_eq_some', Prod.mk.injEq] at h
    obtain ⟨t', ht', rfl, rfl⟩ := h
    exact ⟨List.mem_of_mem_head? ht', [], rfl⟩
  | cons c cs ih =>
    simp only [Re.find] at h
    cases hh : (r.run ⟨before, c :: cs, []⟩).head? with
    | some t' =>
      simp only [hh, Option.some.injEq, Prod.mk.injEq] at h
      obtain ⟨rfl, rfl⟩ := h
      exact ⟨List.mem_of_mem_head? hh, [], rfl⟩
    | none =>
      simp only [hh] at h
      obtain ⟨h1, pre, h2⟩ := ih (c :: before) h
      exact ⟨h1, c :: pre, by rw [h2]; rfl⟩

theorem find_isSome (r : Re) (pre rest before : List Char)
    (hne : r.run ⟨pre.reverse ++ before, rest, []⟩ ≠ []) :
    (r.find before (pre ++ rest)).isSome = true := by
  induction pre generalizing before with
  | nil =>
    simp only [List.reverse_nil, List.nil_append] at hne ⊢
    cases rest with
    | nil =>
      simp only [Re.find, Option.isSome_map']
      cases hh : (r.run ⟨before, [], []⟩).head? with
      | some t' => rfl
      | none => exact absurd (List.head?_eq_none_iff.1 hh) hne
    | cons c cs =>
      simp only [Re.find]
      cases hh : (r.run ⟨before, c :: cs, []⟩).head? with
      | some t' => rfl
      | none => exact absurd (List.head?_eq_none_iff.1 hh) hne
  | cons p pre' ih =>
    simp only [List.cons_append, Re.find]
    cases hh : (r.run ⟨before, p :: (pre' ++ rest), []⟩).head? with
    | some t' => rfl
    | none =>
      simp only []
      apply ih
      simpa using hne

theorem accepts_digitsLazy : Accepts reDigitsLazy DigitRun := by
  refine (accepts_rep_chr Char.isDigit 1 false).congr ?_
  intro w
  unfold DigitRun
  constructor
  · rintro ⟨h1, h2⟩
    refine ⟨?_, h2⟩
    rintro rfl
    simp at h1
  · rintro ⟨h1, h2⟩
    exact ⟨List.length_pos.2 h1, h2⟩

theorem accepts_reChar (c : Char) : Accepts (reChar c) (fun w => w = [c]) := by
  refine (accepts_chr (fun d => d = c)).congr ?_
  intro w
  constructor
  · rintro ⟨d, rfl, hd⟩
    simp only [decide_eq_true_eq] at hd
    rw [hd]
  · rintro rfl
    exact ⟨c, rfl, by simp⟩

theorem accepts_looseQuad : Accepts reLooseQuad LooseQuad := by
  have h : Accepts reLooseQuad _ :=
    accepts_seq accepts_digitsLazy (accepts_seq (accepts_reChar '.')
      (accepts_seq accepts_digitsLazy (accepts_seq (accepts_reChar '.')
        (accepts_seq accepts_digitsLazy (accepts_seq (accepts_reChar '.')
          accepts_digitsLazy)))))
  refine h.congr ?_
  intro w
  unfold LooseQuad
  constructor
  · rintro ⟨a, _, rfl, ha, _, _, rfl, rfl, b, _, rfl, hb, _, _, rfl, rfl, c, _, rfl, hc,
      _, d, rfl, rfl, hd⟩
    exact ⟨a, b, c, d, by simp, ha, hb, hc, hd⟩
  · rintro ⟨a, b, c, d, rfl, ha, hb, hc, hd⟩
    exact ⟨a, _, rfl, ha, _, _, rfl, rfl, b, _, rfl, hb, _, _, rfl, rfl, c, _, rfl, hc,
      _, d, rfl, rfl, hd⟩

theorem accepts_leakBody :
    Accepts (reSeq [reLooseQuad, reChar ',', .rep reDot 1 none true, reLooseQuad]) LeakWord := by
  have h : Accepts (reSeq [reLooseQuad, reChar ',', .rep reDot 1 none true, reLooseQuad]) _ :=
    accepts_seq accepts_looseQuad (accepts_seq (accepts_reChar ',')
      (accepts_seq (accepts_rep_chr (fun c => c != '\n') 1 true) accepts_looseQuad))
  refine h.congr ?_
  intro w
  unfold LeakWord
  constructor
  · rintro ⟨q1, _, rfl, hq1, _, _, rfl, rfl, mid, q2, rfl, ⟨hlen, hmid⟩, hq2⟩
    refine ⟨q1, mid, q2, by simp, hq1, hq2, ?_, ?_⟩
    · rintro rfl
      simp at hlen
    · intro c hc
      simpa using hmid c hc
  · rintro ⟨q1, mid, q2, rfl, hq1, hq2, hne, hmid⟩
    refine ⟨q1, _, rfl, hq1, _, _, rfl, rfl, mid, q2, rfl, ⟨List.length_pos.2 hne, ?_⟩, hq2⟩
    intro c hc
    simpa using hmid c hc

theorem leakWord_ne_nil {w : List Char} (h : LeakWord w) : w ≠ [] := by
  obtain ⟨q1, mid, q2, rfl, _⟩ := h
  simp

/-- The leak pattern finds a match exactly in the texts of `LeakShape`. -/
theorem leak_findString_ne_empty_iff (str : String) :
    leakPattern.re.findString str ≠ "" ↔ LeakShape str.data := by
  have hre : leakPattern.re =
      .group 1 (reSeq [reLooseQuad, reChar ',', .rep reDot 1 none true, reLooseQuad]) := rfl
  rw [hre]
  constructor
  · intro h
    unfold Re.findString at h
    cases hf : (Re.group 1 (reSeq [reLooseQuad, reChar ',', .rep reDot 1 none true,
        reLooseQuad])).find [] str.data with
    | none => simp [hf] at h
    | some st =>
      obtain ⟨s, t⟩ := st
      obtain ⟨hrun, pre, hpre⟩ := find_some_run _ _ _ _ _ hf
      obtain ⟨t0, ht0, _⟩ := (mem_run_group _ _ _ _).1 hrun
      obtain ⟨w, hw, hadv⟩ := (accepts_leakBody s t0).1 ht0
      exact ⟨pre, w, t0.rest, by rw [hpre, hadv.1], hw⟩
  · rintro ⟨pre, w, post, hdata, hw⟩
    have hne : (Re.group 1 (reSeq [reLooseQuad, reChar ',', .rep reDot 1 none true,
        reLooseQuad])).run ⟨pre.reverse ++ [], w ++ post, []⟩ ≠ [] := by
      apply List.ne_nil_of_mem
      apply (mem_run_group _ _ _ _).2
      refine ⟨⟨w.reverse ++ (pre.reverse ++ []), post, []⟩, ?_, rfl⟩
      exact (accepts_leakBody _ _).2 ⟨w, hw, rfl, rfl, rfl⟩
    have hsome := find_isSome _ pre (w ++ post) [] hne
    rw [← hdata] at hsome
    unfold Re.findString
    cases hf : (Re.group 1 (reSeq [reLooseQuad, reChar ',', .rep reDot 1 none true,
        reLooseQuad])).find [] str.data with
    | none => simp [hf] at hsome
    | some st =>
      obtain ⟨s, t⟩ := st
      obtain ⟨hrun, _⟩ := find_some_run _ _ _ _ _ hf
      obtain ⟨t0, ht0, ht⟩ := (mem_run_group _ _ _ _).1 hrun
      obtain ⟨w', hw', hadv⟩ := (accepts_leakBody s t0).1 ht0
      have hc : consumed s t = w' := by
        have : consumed s t = consumed s t0 := by rw [ht]; rfl
        rw [this, consumed_of_adv hadv]
      simp only [hc]
      intro hbad
      have := congrArg String.data hbad
      exact leakWord_ne_nil hw' this

/-- C9, as the code has it: a body with the marker and the two distinct addresses
`1.2.3.4` and `5.6.7.8`, separated by a blank, is classified `high`, and a body
that holds the one address `1.2.3.4` twice, after a comma, is classified
`transparent`. -/
theorem CheckProxyAnonymity_not_two_distinct :
    strContains "\x7b\"url\":\"u\",\"origin\":\"1.2.3.4 5.6.7.8\"\x7d" "\"url\"" = true ∧
      "\x7b\"url\":\"u\",\"origin\":\"1.2.3.4 5.6.7.8\"\x7d" =
        "\x7b\"url\":\"u\",\"origin\":\"" ++ "1.2.3.4" ++ " " ++ "5.6.7.8" ++ "\"\x7d" ∧
      CheckProxyAnonymity (fetched "\x7b\"url\":\"u\",\"origin\":\"1.2.3.4 5.6.7.8\"\x7d") = "high" ∧
      CheckProxyAnonymity (fetched "\x7b\"url\":\"u\",\"origin\":\"1.2.3.4, 1.2.3.4\"\x7d") =
        "transparent" := by
  refine ⟨?_, ?_, ?_, ?_⟩ <;> decide

/-- C9, amended. When the fetch succeeds and the text read (the first 2048 bytes of
the body) contains the `"url"` marker, `CheckProxyAnonymity` classifies in priority
order: `transparent` if the text holds a dotted quad of digit runs, a comma right
after it, at least one more character on the same line and a second dotted quad
(the two need not differ); otherwise `common` if it contains `keep-alive`;
otherwise `high`. -/
theorem CheckProxyAnonymity_priority (f : EchoFetch) (hp : f.parseErr = false)
    (hq : f.requestErr = false) (hd : f.doErr = false)
    (hurl : strContains (echoResult f) "\"url\"" = true) :
    (LeakShape (echoResult f).data → CheckProxyAnonymity f = "transparent") ∧
      (¬ LeakShape (echoResult f).data → strContains (echoResult f) "keep-alive" = true →
        CheckProxyAnonymity f = "common") ∧
      (¬ LeakShape (echoResult f).data → strContains (echoResult f) "keep-alive" = false →
        CheckProxyAnonymity f = "high") := by
  have hiff := leak_findString_ne_empty_iff (echoResult f)
  refine ⟨?_, ?_, ?_⟩
  · intro hl
    have := hiff.2 hl
    simp [CheckProxyAnonymity, hp, hq, hd, hurl, this]
  · intro hl hk
    have : ¬ leakPattern.re.findString (echoResult f) ≠ "" := fun h => hl (hiff.1 h)
    simp only [ne_eq, not_not] at this
    simp [CheckProxyAnonymity, hp, hq, hd, hurl, this, hk]
  · intro hl hk
    have : ¬ leakPattern.re.findString (echoResult f) ≠ "" := fun h => hl (hiff.1 h)
    simp only [ne_eq, not_not] at this
    simp [CheckProxyAnonymity, hp, hq, hd, hurl, this, hk]

/-- C9, amended, an instance: the echo body with two addresses after `origin`. -/
theorem CheckProxyAnonymity_priority_witness :
    CheckProxyAnonymity (fetched "\x7b\"url\":\"...\",\"origin\":\"1.2.3.4, 5.6.7.8\"\x7d") =
      "transparent" :=
  (CheckProxyAnonymity_priority (fetched "\x7b\"url\":\"...\",\"origin\":\"1.2.3.4, 5.6.7.8\"\x7d")
    rfl rfl rfl (by decide)).1
    ((leak_findString_ne_empty_iff _).1 (by decide))

/-! ## The target of the CONNECT request -/

theorem no_www_prefix_of_no_dot (h : String) (hdot : strContains h "." = false) :
    strHasPrefix h "www." = false := by
  cases hp : strHasPrefix h "www." with
  | false => rfl
  | true =>
    exfalso
    unfold strHasPrefix at hp
    rw [ List.isPrefixOf_iff_prefix] at hp
    have hin : ".".data <:+: "www.".data := ⟨['w', 'w', 'w'], [], rfl⟩
    have := (containsChars_iff_sub _ _).2 (hin.trans (List.IsPrefix.isInfix hp))
    unfold strContains at hdot
    rw [hdot] at this
    exact Bool.false_ne_true this

/-- C10, as the code has it: called with no target, `CheckHttpsResponse` sends the
CONNECT request for `baidu.com:443`, whose host does not start with `www.`. -/
theorem default_target_without_www :
    targetAddress "" = "baidu.com:443" ∧ strHasPrefix (httpsTarget "").1 "www." = false ∧
      httpsWritten ⟨false, false, [], false⟩ "" =
        some ("CONNECT baidu.com:443 HTTP/1.1\r\nHost: baidu.com:443\r\n" ++
          "User-Agent: Mozilla/5.0\r\nConnection: keep-alive\r\n\r\n") := by
  refine ⟨?_, ?_, ?_⟩ <;> decide

/-- C10, amended. Called with no target, `CheckHttpsResponse` sends the CONNECT
request for `baidu.com:443`: the default host `baidu.com` contains a dot and gets
no `www.` prefix.  For every supplied target whose host part lacks a dot the host
is sent with a `www.` prefix added, and a host part that contains a dot is sent as
it is. -/
theorem httpsTarget_normalised (reqDomain : String) :
    httpsTarget "" = ("baidu.com", "443") ∧
      (reqDomain ≠ "" → strContains ((strSplit reqDomain ':').headD "") "." = false →
        (httpsTarget reqDomain).1 = "www." ++ (strSplit reqDomain ':').headD "") ∧
      (reqDomain ≠ "" → strContains ((strSplit reqDomain ':').headD "") "." = true →
        (httpsTarget reqDomain).1 = (strSplit reqDomain ':').headD "") := by
  refine ⟨by decide, ?_, ?_⟩
  · intro hne hdot
    have hpre := no_www_prefix_of_no_dot _ hdot
    simp only [httpsTarget, ne_eq, hne, not_false_eq_true, if_true, hpre, hdot, Bool.not_false,
      Bool.and_self]
  · intro hne hdot
    simp only [httpsTarget, ne_eq, hne, not_false_eq_true, if_true, hdot, Bool.not_true,
      Bool.and_false, Bool.false_eq_true, if_false]

/-- C10, amended, an instance: the supplied target `example:8443`. -/
theorem httpsTarget_normalised_witness :
    (httpsTarget "example:8443").1 = "www." ++ "example" ∧
      targetAddress "example:8443" = "www.example:8443" :=
  ⟨(httpsTarget_normalised "example:8443").2.1 (by decide) (by decide), by decide⟩

/-! ## The row step of `parseFromTable` on an address cell and a port cell -/

/-- C12, on the code: the port loop also runs on the cell that holds the address,
so the row made of the address cell `7.7.7.7` and the port cell `3128` contributes
`7.7.7.7:7`, the address joined with its own first octet, and the row `10.0.0.1`,
`8080` contributes `10.0.0.1:10`. -/
theorem rowStep_port_from_address_cell :
    IsIpV4 "7.7.7.7" = true ∧ ToInt "3128" = some 3128 ∧
      rowStep ["7.7.7.7", "3128"] = ["7.7.7.7:7"] ∧
      rowStep ["10.0.0.1", "8080"] = ["10.0.0.1:10"] ∧
      cellStep ("", "") "7.7.7.7" = ("7.7.7.7", "7") := by
  refine ⟨?_, ?_, ?_, ?_, ?_⟩ <;> decide

/-! ## The doubled output of the direct-pattern scan -/

theorem foldl_append_eq_flatten (acc : List String) (L : List (List String)) :
    L.foldl (fun ips ipSlice => ips ++ ipSlice) acc = acc ++ L.flatten := by
  induction L generalizing acc with
  | nil => simp
  | cons x xs ih => simp [List.foldl_cons, ih, List.append_assoc]

/-- Every element delivered by the match loop is the submatch list of a match
that `find` reported. -/
theorem allMatches_forall (r : Re) (n : Nat) (P : List String → Prop)
    (h : ∀ before rest s t, r.find before rest = some (s, t) → P (submatches n s t))
    (fuel : Nat) (before rest : List Char) (prevEnd : Option Nat) :
    ∀ m ∈ r.allMatches n fuel before rest prevEnd, P m := by
  induction fuel generalizing before rest prevEnd with
  | zero => simp [Re.allMatches]
  | succ fuel ih =>
    intro m hm
    simp only [Re.allMatches] at hm
    cases hf : r.find before rest with
    | none => simp [hf] at hm
    | some st =>
      obtain ⟨s, t⟩ := st
      have hP := h before rest s t hf
      simp only [hf] at hm
      by_cases hlen : t.rest.length = rest.length
      · simp only [hlen, if_true] at hm
        cases rest with
        | nil =>
          simp only at hm
          by_cases hprev : some s.before.length = prevEnd
          · simp [hprev] at hm
          · simp only [hprev, if_false, List.mem_singleton] at hm
            rw [hm]
            exact hP
        | cons c cs =>
          simp only [List.mem_append] at hm
          rcases hm with hm | hm
          · by_cases hprev : some s.before.length = prevEnd
            · simp [hprev] at hm
            · simp only [hprev, if_false, List.mem_singleton] at hm
              rw [hm]
              exact hP
          · exact ih _ _ _ m hm
      · simp only [hlen, if_false, List.mem_cons] at hm
        rcases hm with hm | hm
        · rw [hm]
          exact hP
        · exact ih _ _ _ m hm

theorem cap_of_group_run (i : Nat) (r : Re) (s t : MState) (h : t ∈ (Re.group i r).run s) :
    t.cap i = consumed s t := by
  obtain ⟨t0, _, rfl⟩ := (mem_run_group i r s t).1 h
  simp [MState.cap, consumed]

theorem direct_submatches_pair (before rest : List Char) (s t : MState)
    (h : directPattern.re.find before rest = some (s, t)) :
    ∃ w : String, submatches directPattern.groups s t = [w, w] := by
  have hrun := (find_some_run _ _ _ _ _ h).1
  have hcap : t.cap 1 = consumed s t := cap_of_group_run 1 _ s t hrun
  refine ⟨⟨consumed s t⟩, ?_⟩
  have hg : directPattern.groups = 1 := rfl
  rw [hg]
  have hr : List.range 1 = [0] := rfl
  simp only [submatches, hr, List.map_cons, List.map_nil, Nat.zero_add, hcap]

theorem direct_matches_pairs (html : String) :
    ∀ m ∈ RegexMatchAllGroups directPattern html, ∃ w : String, m = [w, w] := by
  unfold RegexMatchAllGroups Re.findAllStringSubmatch
  exact allMatches_forall _ _ _ direct_submatches_pair _ _ _ _

theorem flatten_of_pairs (L : List (List String)) (h : ∀ m ∈ L, ∃ w : String, m = [w, w]) :
    L.flatten = twice (L.map (fun m => m.headD "")) := by
  induction L with
  | nil => rfl
  | cons m ms ih =>
    obtain ⟨w, rfl⟩ := h m (List.mem_cons_self _ _)
    have ih' := ih (fun m' hm' => h m' (List.mem_cons_of_mem _ hm'))
    simp only [List.flatten_cons, ih', twice, List.map_cons, List.flatMap_cons, List.headD_cons]

theorem length_twice (ms : List String) : (twice ms).length = 2 * ms.length := by
  induction ms with
  | nil => rfl
  | cons m ms ih =>
    simp only [twice, List.flatMap_cons, List.length_append, List.length_cons, List.length_nil]
      at ih ⊢
    omega

theorem directScan_eq_twice (html : String) : directScan html = twice (directMatches html) := by
  unfold directScan directMatches
  rw [foldl_append_eq_flatten, List.nil_append]
  exact flatten_of_pairs _ (direct_matches_pairs html)

/-- C13, as the code has it: on a content where the direct pattern finds no match
the result is not the empty list but what the later strategies find. -/
theorem ParseURLs_no_direct_match :
    directMatches "host: 1.2.3.4 port: 80" = [] ∧
      ParseURLs noTables "host: 1.2.3.4 port: 80" = ["1.2.3.4:80"] := by
  constructor <;> decide

/-- C13, amended. The direct-pattern scan yields every match `m1..mk` of the
pattern twice in a row, `[m1, m1, ..., mk, mk]`, a list of length `2k`; and on
every content where it finds at least one match, that list is what `ParseURLs`
returns. -/
theorem ParseURLs_twice (gq : Goquery) (html : String) :
    directScan html = twice (directMatches html) ∧
      (directScan html).length = 2 * (directMatches html).length ∧
      (directMatches html ≠ [] →
        ParseURLs gq html = twice (directMatches html) ∧
          (ParseURLs gq html).length = 2 * (directMatches html).length) := by
  have hscan := directScan_eq_twice html
  refine ⟨hscan, by rw [hscan, length_twice], ?_⟩
  intro hne
  have hlen : (directScan html).length ≠ 0 := by
    rw [hscan, length_twice]
    have : (directMatches html).length ≠ 0 := fun h => hne (List.length_eq_zero.1 h)
    omega
  have hP : ParseURLs gq html = directScan html := by
    unfold ParseURLs
    simp only [hlen, if_false]
  rw [hP, hscan]
  exact ⟨rfl, length_twice _⟩

/-- C13, amended, an instance: the content `10.0.0.1:8080`. -/
theorem ParseURLs_twice_witness :
    directMatches "10.0.0.1:8080" = ["10.0.0.1:8080"] ∧
      ParseURLs noTables "10.0.0.1:8080" = ["10.0.0.1:8080", "10.0.0.1:8080"] :=
  ⟨by decide, ((ParseURLs_twice noTables "10.0.0.1:8080").2.2 (by decide)).1.trans (by decide)⟩

/-! ## The three line formats of the history file -/

theorem digit_toNat (c : Char) (h : c.isDigit = true) : 48 ≤ c.toNat ∧ c.toNat ≤ 57 := by
  simp only [Char.isDigit, Bool.and_eq_true, decide_eq_true_eq, ge_iff_le] at h
  obtain ⟨h1, h2⟩ := h
  rw [UInt32.le_def] at h1 h2
  simp only [Char.toNat, UInt32.toNat]
  constructor
  · have := BitVec.le_def.1 h1
    simpa using this
  · have := BitVec.le_def.1 h2
    simpa using this

theorem char_ne_of_toNat (c d : Char) (h : c.toNat ≠ d.toNat) : c ≠ d :=
  fun e => h (by rw [e])

theorem endpointChar_of_digit (c : Char) (h : c.isDigit = true) : EndpointChar c := by
  have := digit_toNat c h
  unfold EndpointChar
  omega

theorem endpointChar_ne (c d : Char) (h : EndpointChar c) (hd : d.toNat < 46 ∨ 58 < d.toNat) :
    c ≠ d := by
  apply char_ne_of_toNat
  unfold EndpointChar at h
  omega

theorem endpointChar_not_space (c : Char) (h : EndpointChar c) : isGoSpace c = false := by
  have hne := endpointChar_ne c
  unfold isGoSpace
  simp only [Bool.or_eq_false_iff, decide_eq_false_iff_not, Bool.and_eq_false_iff]
  refine ⟨⟨⟨⟨⟨⟨⟨⟨⟨⟨⟨⟨⟨⟨?_, ?_⟩, ?_⟩, ?_⟩, ?_⟩, ?_⟩, ?_⟩, ?_⟩, ?_⟩, ?_⟩, ?_⟩, ?_⟩, ?_⟩, ?_⟩, ?_⟩
  all_goals first
    | exact hne _ h (by decide)
    | (left; unfold EndpointChar at h; omega)

theorem endpointChar_plain (c : Char) (h : EndpointChar c) : isPlainChar c = true := by
  have hne := endpointChar_ne c
  unfold isPlainChar
  simp only [Bool.and_eq_true, decide_eq_true_eq, bne_iff_ne, ne_eq]
  refine ⟨⟨⟨⟨⟨⟨⟨?_, ?_⟩, ?_⟩, ?_⟩, ?_⟩, ?_⟩, ?_⟩, ?_⟩
  all_goals first
    | exact hne _ h (by decide)
    | (unfold EndpointChar at h; omega)

theorem endpointShape_chars (s : String) (h : EndpointShape s) :
    ∀ c ∈ s.data, EndpointChar c := by
  obtain ⟨a, b, c, d, p, hs, ha, hb, hc, hd, hp⟩ := h
  intro x hx
  rw [hs] at hx
  have hdot : EndpointChar '.' := by unfold EndpointChar; decide
  have hcol : EndpointChar ':' := by unfold EndpointChar; decide
  simp only [List.mem_append, List.mem_cons] at hx
  rcases hx with hx | rfl | hx | rfl | hx | rfl | hx | rfl | hx
  · exact endpointChar_of_digit x (ha.2.2 x hx)
  · exact hdot
  · exact endpointChar_of_digit x (hb.2.2 x hx)
  · exact hdot
  · exact endpointChar_of_digit x (hc.2.2 x hx)
  · exact hdot
  · exact endpointChar_of_digit x (hd.2.2 x hx)
  · exact hcol
  · exact endpointChar_of_digit x (hp.2.2 x hx)

theorem trimChars_of_ends (p : Char → Bool) (l m m' : List Char) (c d : Char)
    (h1 : l = c :: m) (h2 : l = m' ++ [d]) (hc : p c = false) (hd : p d = false) :
    trimChars p l = l := by
  unfold trimChars
  have e1 : l.dropWhile p = l := by
    rw [h1]
    simp [List.dropWhile, hc]
  rw [e1]
  have e2 : l.reverse.dropWhile p = l.reverse := by
    rw [h2]
    simp [List.dropWhile, hd]
  rw [e2, List.reverse_reverse]

theorem strTrimSpace_of_ends (s : String) (m m' : List Char) (c d : Char)
    (h1 : s.data = c :: m) (h2 : s.data = m' ++ [d]) (hc : isGoSpace c = false)
    (hd : isGoSpace d = false) : strTrimSpace s = s := by
  have h := trimChars_of_ends isGoSpace s.data m m' c d h1 h2 hc hd
  unfold trimChars at h
  unfold strTrimSpace
  rw [h]

theorem containsChars_singleton (x : Char) (l : List Char) :
    containsChars [x] l = true ↔ x ∈ l := by
  induction l with
  | nil => simp [containsChars]
  | cons c cs ih =>
    simp only [containsChars, Bool.or_eq_true, ih, List.mem_cons]
    constructor
    · rintro (h | h)
      · left
        simpa [List.isPrefixOf] using h
      · exact Or.inr h
    · rintro (h | h)
      · left
        simp [List.isPrefixOf, h]
      · exact Or.inr h

theorem strContains_char_false (s : String) (x : Char) (h : x ∉ s.data) :
    strContains s ⟨[x]⟩ = false := by
  unfold strContains
  cases hc : containsChars [x] s.data with
  | false => rfl
  | true => exact absurd ((containsChars_singleton x s.data).1 hc) h

theorem strContains_char_true (s : String) (x : Char) (h : x ∈ s.data) :
    strContains s ⟨[x]⟩ = true :=
  (containsChars_singleton x s.data).2 h

/-- An endpoint text starts with a digit and ends with a digit. -/
theorem endpointShape_ends (s : String) (h : EndpointShape s) :
    ∃ (x y : Char) (m m' : List Char), s.data = x :: m ∧ s.data = m' ++ [y] ∧
      EndpointChar x ∧ EndpointChar y := by
  obtain ⟨a, b, c, d, p, hs, ha, hb, hc, hd, hp⟩ := h
  obtain ⟨x, a', rfl⟩ := List.exists_cons_of_ne_nil ha.1
  obtain ⟨p', y, hpy⟩ := (List.eq_nil_or_concat p).resolve_left hp.1
  rw [List.concat_eq_append] at hpy
  subst hpy
  refine ⟨x, y, a' ++ '.' :: (b ++ '.' :: (c ++ '.' :: (d ++ ':' :: (p' ++ [y])))),
    x :: a' ++ '.' :: (b ++ '.' :: (c ++ '.' :: (d ++ ':' :: p'))), ?_, ?_, ?_, ?_⟩
  · rw [hs]
    rfl
  · rw [hs]
    simp
  · exact endpointChar_of_digit x (ha.2.2 x (by simp))
  · exact endpointChar_of_digit y (hp.2.2 y (by simp))

theorem endpointShape_has_colon (s : String) (h : EndpointShape s) : ':' ∈ s.data := by
  obtain ⟨a, b, c, d, p, hs, _⟩ := h
  rw [hs]
  simp

theorem admits_of_accepts {r : Re} {L : List Char → Prop} (h : Accepts r L) : Admits r L :=
  fun s t w hw ha => (h s t).2 ⟨w, hw, ha⟩

theorem Admits.mono {r : Re} {L L' : List Char → Prop} (h : Admits r L)
    (hL : ∀ w, L' w → L w) : Admits r L' :=
  fun s t w hw ha => h s t w (hL w hw) ha

theorem admits_seq {a b : Re} {La Lb : List Char → Prop} (ha : Admits a La)
    (hb : Admits b Lb) :
    Admits (.seq a b) (fun w => ∃ w1 w2, w = w1 ++ w2 ∧ La w1 ∧ Lb w2) := by
  rintro s t w ⟨w1, w2, rfl, h1, h2⟩ hadv
  obtain ⟨u, a1, a2⟩ := hadv.split
  simp only [Re.run, List.mem_flatMap]
  exact ⟨u, ha s u w1 h1 a1, hb u t w2 h2 a2⟩

theorem run_rep_bounded (r : Re) (lo hi : Nat) (greedy : Bool) (s : MState) :
    (Re.rep r lo (some hi) greedy).run s =
      (repExact (fun t => r.run t) lo s).flatMap (fun t =>
        repUpTo (fun u => r.run u) greedy (hi - lo) t) := by
  rw [Re.run]

theorem admits_rep_chr_bounded (p : Char → Bool) (lo hi : Nat) (greedy : Bool) :
    Admits (.rep (.chr p) lo (some hi) greedy)
      (fun w => lo ≤ w.length ∧ w.length ≤ hi ∧ ∀ c ∈ w, p c = true) := by
  rintro s t w ⟨hlo, hhi, hall⟩ hadv
  rw [run_rep_bounded]
  simp only [List.mem_flatMap, mem_repUpTo, mem_repExact_chr]
  have hw : w = w.take lo ++ w.drop lo := (List.take_append_drop lo w).symm
  rw [hw] at hadv
  obtain ⟨u, a1, a2⟩ := hadv.split
  refine ⟨u, ⟨w.take lo, by simp [hlo], fun c hc => hall c (List.mem_of_mem_take hc), a1⟩,
    (w.drop lo).length, ?_, w.drop lo, rfl, fun c hc => hall c (List.mem_of_mem_drop hc), a2⟩
  simp only [List.length_drop]
  omega

theorem admits_rep_three {r : Re} {L : List Char → Prop} (h : Admits r L) (greedy : Bool) :
    Admits (.rep r 3 (some 3) greedy)
      (fun w => ∃ w1 w2 w3, w = w1 ++ (w2 ++ w3) ∧ L w1 ∧ L w2 ∧ L w3) := by
  rintro s t w ⟨w1, w2, w3, rfl, h1, h2, h3⟩ hadv
  rw [run_rep_bounded]
  obtain ⟨u1, a1, a23⟩ := hadv.split
  obtain ⟨u2, a2, a3⟩ := a23.split
  simp only [repExact, repUpTo, List.mem_flatMap, List.mem_singleton, Nat.sub_self]
  exact ⟨t, ⟨u1, h s u1 w1 h1 a1, u2, h u1 u2 w2 h2 a2, t, h u2 t w3 h3 a3, rfl⟩, rfl⟩

theorem admits_digits (n : Nat) : Admits (.rep reDigit 1 (some n) true) (DigitsUpTo n) := by
  refine (admits_rep_chr_bounded Char.isDigit 1 n true).mono ?_
  rintro w ⟨h1, h2, h3⟩
  exact ⟨List.length_pos.2 h1, h2, h3⟩

theorem admits_endpoint :
    Admits (reSeq [reDottedQuad, reChar ':', .rep reDigit 1 (some 5) true]) EndpointWord := by
  have hdot := admits_of_accepts (accepts_reChar '.')
  have hcol := admits_of_accepts (accepts_reChar ':')
  have hgroup := admits_rep_three (admits_seq (admits_digits 3) hdot) true
  have h : Admits (reSeq [reDottedQuad, reChar ':', .rep reDigit 1 (some 5) true]) _ :=
    admits_seq (admits_seq hgroup (admits_digits 3)) (admits_seq hcol (admits_digits 5))
  refine h.mono ?_
  rintro w ⟨a, b, c, d, p, rfl, ha, hb, hc, hd, hp⟩
  refine ⟨a ++ '.' :: (b ++ '.' :: (c ++ '.' :: d)), ':' :: p, by simp,
    ⟨a ++ '.' :: (b ++ '.' :: (c ++ ['.'])), d, by simp,
      ⟨a ++ ['.'], b ++ ['.'], c ++ ['.'], by simp,
        ⟨a, ['.'], rfl, ha, rfl⟩, ⟨b, ['.'], rfl, hb, rfl⟩, ⟨c, ['.'], rfl, hc, rfl⟩⟩, hd⟩,
    ⟨[':'], p, rfl, rfl, hp⟩⟩

/-- The bare line pattern matches every endpoint text. -/
theorem bareLine_matches (s : String) (h : EndpointShape s) :
    bareLinePattern.re.matchString s = true := by
  have hre : bareLinePattern.re =
      .seq .bol (.seq (.group 1 (reSeq [reDottedQuad, reChar ':', .rep reDigit 1 (some 5) true]))
        .eol) := rfl
  unfold Re.matchString
  rw [hre]
  have hfind := find_isSome
    (.seq .bol (.seq (.group 1 (reSeq [reDottedQuad, reChar ':', .rep reDigit 1 (some 5) true]))
      .eol)) [] s.data []
  simp only [List.nil_append, List.reverse_nil] at hfind
  apply hfind
  apply List.ne_nil_of_mem
  show (⟨s.data.reverse, [], [(1, s.data)]⟩ : MState) ∈ _
  have hadv : Adv ⟨[], s.data, []⟩ ⟨s.data.reverse, [], []⟩ s.data := by
    refine ⟨by simp, by simp, rfl⟩
  have hbody := admits_endpoint _ _ s.data h hadv
  have hgrp : (⟨s.data.reverse, [], [(1, s.data)]⟩ : MState) ∈
      (Re.group 1 (reSeq [reDottedQuad, reChar ':', .rep reDigit 1 (some 5) true])).run
        ⟨[], s.data, []⟩ := by
    apply (mem_run_group _ _ _ _).2
    refine ⟨_, hbody, ?_⟩
    simp [consumed]
  rw [Re.run, List.mem_flatMap]
  refine ⟨⟨[], s.data, []⟩, by simp [Re.run], ?_⟩
  rw [Re.run, List.mem_flatMap]
  exact ⟨_, hgrp, by simp [Re.run]⟩

theorem string_ne_empty_of_cons (s : String) (c : Char) (m : List Char) (h : s.data = c :: m) :
    s ≠ "" := by
  intro e
  rw [e] at h
  exact absurd h (by simp)

/-- The first line format: a bare endpoint text is taken as it is. -/
theorem ingestLine_bare (lib : GoValues) (s : String) (h : EndpointShape s) :
    ingestLine lib s = [s] := by
  obtain ⟨x, y, m, m', h1, h2, hx, hy⟩ := endpointShape_ends s h
  have htrim : strTrimSpace s = s :=
    strTrimSpace_of_ends s m m' x y h1 h2 (endpointChar_not_space x hx)
      (endpointChar_not_space y hy)
  have hne : s ≠ "" := string_ne_empty_of_cons s x m h1
  have hchars := endpointShape_chars s h
  have hbrace : strContains s "\x7b" = false := by
    apply strContains_char_false s (Char.ofNat 0x7b)
    intro hmem
    exact endpointChar_ne _ _ (hchars _ hmem) (by decide) rfl
  have hmatch := bareLine_matches s h
  unfold ingestLine
  simp only [htrim, hne, if_false, hbrace, Bool.false_and, Bool.false_eq_true, hmatch, if_true]

theorem lexRun_append_of_eq (lib : GoValues) (st st' : List Tok × Lex) (a b : List Char)
    (h : lexRun lib st a = some st') : lexRun lib st (a ++ b) = lexRun lib st' b := by
  induction a generalizing st with
  | nil =>
    simp only [lexRun, Option.some.injEq] at h
    rw [h, List.nil_append]
  | cons c cs ih =>
    simp only [lexRun, List.cons_append] at h ⊢
    cases hs : lexStep lib st c with
    | none => simp [hs] at h
    | some st1 =>
      simp only [hs] at h ⊢
      exact ih st1 h

theorem lexRun_plain (lib : GoValues) (toks : List Tok) (acc w : List Char) (h : JsonPlain w) :
    lexRun lib (toks, .str acc none) w = some (toks, .str (acc ++ w) none) := by
  induction w generalizing acc with
  | nil => simp [lexRun]
  | cons c cs ih =>
    obtain ⟨h1, h2, h3⟩ := h c (List.mem_cons_self _ _)
    have hstep : lexStep lib (toks, .str acc none) c = some (toks, .str (acc ++ [c]) none) := by
      simp [lexStep, h1, h2, h3, flushPend]
    simp only [lexRun, hstep]
    rw [ih (acc ++ [c]) (fun d hd => h d (List.mem_cons_of_mem _ hd))]
    simp

theorem lexRun_bool (lib : GoValues) (toks : List Tok) (b : Bool) :
    lexRun lib (toks, .idle) (boolJson b).data = some (.word (.bool b) :: toks, .idle) := by
  cases b <;> rfl

theorem lexRun_open (lib : GoValues) (toks : List Tok) :
    lexRun lib (toks, .idle) "\x7b\"ip\":\"".data =
      some (.colon :: .str "ip".data :: .lbrace :: toks, .str [] none) := rfl

theorem lexRun_http (lib : GoValues) (toks : List Tok) (acc : List Char) :
    lexRun lib (toks, .str acc none) "\",\"http\":".data =
      some (.colon :: .str "http".data :: .comma :: .str acc :: toks, .idle) := rfl

theorem lexRun_https (lib : GoValues) (toks : List Tok) :
    lexRun lib (toks, .idle) ",\"https\":".data =
      some (.colon :: .str "https".data :: .comma :: toks, .idle) := rfl

theorem lexRun_socks5 (lib : GoValues) (toks : List Tok) :
    lexRun lib (toks, .idle) ",\"socks5\":".data =
      some (.colon :: .str "socks5".data :: .comma :: toks, .idle) := rfl

theorem lexRun_anonymity (lib : GoValues) (toks : List Tok) :
    lexRun lib (toks, .idle) ",\"anonymity\":\"".data =
      some (.colon :: .str "anonymity".data :: .comma :: toks, .str [] none) := rfl

theorem lexRun_close (lib : GoValues) (toks : List Tok) (acc : List Char) :
    lexRun lib (toks, .str acc none) "\"\x7d".data =
      some (.rbrace :: .str acc :: toks, .idle) := rfl

theorem recordJson_data (r : IpInfo) :
    (recordJson r).data =
      "\x7b\"ip\":\"".data ++ (r.IP.data ++ ("\",\"http\":".data ++ ((boolJson r.Http).data ++
        (",\"https\":".data ++ ((boolJson r.Https).data ++ (",\"socks5\":".data ++
          ((boolJson r.Socks5).data ++ (",\"anonymity\":\"".data ++ (r.Anonymity.data ++
            "\"\x7d".data))))))))) := by
  simp only [recordJson, String.data_append, List.append_assoc]

theorem tokenize_record (lib : GoValues) (r : IpInfo) (hip : JsonPlain r.IP.data)
    (han : JsonPlain r.Anonymity.data) :
    tokenize lib (recordJson r).data =
      some [.lbrace, .str "ip".data, .colon, .str r.IP.data, .comma,
        .str "http".data, .colon, .word (.bool r.Http), .comma,
        .str "https".data, .colon, .word (.bool r.Https), .comma,
        .str "socks5".data, .colon, .word (.bool r.Socks5), .comma,
        .str "anonymity".data, .colon, .str r.Anonymity.data, .rbrace] := by
  unfold tokenize
  rw [recordJson_data,
    lexRun_append_of_eq lib _ _ _ _ (lexRun_open lib _),
    lexRun_append_of_eq lib _ _ _ _ (lexRun_plain lib _ _ _ hip),
    lexRun_append_of_eq lib _ _ _ _ (lexRun_http lib _ _),
    lexRun_append_of_eq lib _ _ _ _ (lexRun_bool lib _ _),
    lexRun_append_of_eq lib _ _ _ _ (lexRun_https lib _),
    lexRun_append_of_eq lib _ _ _ _ (lexRun_bool lib _ _),
    lexRun_append_of_eq lib _ _ _ _ (lexRun_socks5 lib _),
    lexRun_append_of_eq lib _ _ _ _ (lexRun_bool lib _ _),
    lexRun_append_of_eq lib _ _ _ _ (lexRun_anonymity lib _),
    lexRun_append_of_eq lib _ _ _ _ (lexRun_plain lib _ _ _ han),
    lexRun_close]
  rfl

/-- The decoder reads the line of a record back into its members. -/
theorem jsonUnmarshal_record (lib : GoValues) (r : IpInfo) (hip : JsonPlain r.IP.data)
    (han : JsonPlain r.Anonymity.data) :
    jsonUnmarshal lib (recordJson r) =
      some [("anonymity".data, .str r.Anonymity.data), ("socks5".data, .bool r.Socks5),
        ("https".data, .bool r.Https), ("http".data, .bool r.Http),
        ("ip".data, .str r.IP.data)] := by
  unfold jsonUnmarshal jsonDecode
  rw [tokenize_record lib r hip han]
  rfl

theorem jsonBranch_record (lib : GoValues) (r : IpInfo) (hip : JsonPlain r.IP.data)
    (han : JsonPlain r.Anonymity.data) (hcolon : ':' ∈ r.IP.data) :
    jsonBranch lib (recordJson r) = some [r.IP] := by
  unfold jsonBranch
  rw [jsonUnmarshal_record lib r hip han]
  have hlook : List.lookup "ip".data
      [("anonymity".data, JVal.str r.Anonymity.data), ("socks5".data, .bool r.Socks5),
        ("https".data, .bool r.Https), ("http".data, .bool r.Http),
        ("ip".data, .str r.IP.data)] = some (.str r.IP.data) := rfl
  have hc : strContains ⟨r.IP.data⟩ ":" = true := strContains_char_true ⟨r.IP.data⟩ ':' hcolon
  simp only [hlook, hc, if_true]

theorem recordJson_ends (r : IpInfo) :
    ∃ m m' : List Char, (recordJson r).data = Char.ofNat 0x7b :: m ∧
      (recordJson r).data = m' ++ [Char.ofNat 0x7d] := by
  refine ⟨"\"ip\":\"".data ++ (r.IP.data ++ ("\",\"http\":".data ++
    ((boolJson r.Http).data ++ (",\"https\":".data ++ ((boolJson r.Https).data ++
      (",\"socks5\":".data ++ ((boolJson r.Socks5).data ++ (",\"anonymity\":\"".data ++
        (r.Anonymity.data ++ "\"\x7d".data))))))))),
    "\x7b\"ip\":\"".data ++ (r.IP.data ++ ("\",\"http\":".data ++
    ((boolJson r.Http).data ++ (",\"https\":".data ++ ((boolJson r.Https).data ++
      (",\"socks5\":".data ++ ((boolJson r.Socks5).data ++ (",\"anonymity\":\"".data ++
        (r.Anonymity.data ++ ['"']))))))))), ?_, ?_⟩
  · rw [recordJson_data]
    rfl
  · rw [recordJson_data]
    have : "\"\x7d".data = ['"'] ++ [Char.ofNat 0x7d] := rfl
    rw [this]
    simp only [List.append_assoc]

theorem not_space_brace_quote :
    isGoSpace (Char.ofNat 0x7b) = false ∧ isGoSpace (Char.ofNat 0x7d) = false ∧
      isGoSpace '"' = false := by
  refine ⟨?_, ?_, ?_⟩ <;> decide

/-- The JSON branch on a line that is not wrapped in quotes. -/
theorem ingestLine_json (lib : GoValues) (line : String) (out : List String)
    (htrim : strTrimSpace line = line) (hne : line ≠ "")
    (hopen : strContains line "\x7b" = true) (hclose : strContains line "\x7d" = true)
    (hpre : strHasPrefix line "\"" = false) (hj : jsonBranch lib line = some out) :
    ingestLine lib line = out := by
  unfold ingestLine
  simp only [htrim, hne, if_false, hopen, hclose, Bool.and_self, if_true, hpre, Bool.false_and,
    Bool.false_eq_true, hj]

/-- The JSON branch on a line wrapped in quotes that `Unquote` takes off. -/
theorem ingestLine_quoted (lib : GoValues) (line inner : String) (out : List String)
    (htrim : strTrimSpace line = line) (hne : line ≠ "")
    (hopen : strContains line "\x7b" = true) (hclose : strContains line "\x7d" = true)
    (hpre : strHasPrefix line "\"" = true) (hsuf : strHasSuffix line "\"" = true)
    (hu : Unquote line = some inner) (hj : jsonBranch lib inner = some out) :
    ingestLine lib line = out := by
  unfold ingestLine
  simp only [htrim, hne, if_false, hopen, hclose, Bool.and_self, if_true, hpre, hsuf, hu, hj]

theorem brace_literals :
    ("\x7b" : String) = ⟨[Char.ofNat 0x7b]⟩ ∧ ("\x7d" : String) = ⟨[Char.ofNat 0x7d]⟩ ∧
      ("\"" : String) = ⟨['"']⟩ :=
  ⟨rfl, rfl, rfl⟩

/-- The second line format: the line of a record gives the `ip` of the record. -/
theorem ingestLine_record (lib : GoValues) (r : IpInfo) (hip : JsonPlain r.IP.data)
    (han : JsonPlain r.Anonymity.data) (hcolon : ':' ∈ r.IP.data) :
    ingestLine lib (recordJson r) = [r.IP] := by
  obtain ⟨m, m', h1, h2⟩ := recordJson_ends r
  have htrim : strTrimSpace (recordJson r) = recordJson r :=
    strTrimSpace_of_ends _ m m' _ _ h1 h2 not_space_brace_quote.1 not_space_brace_quote.2.1
  have hne : recordJson r ≠ "" := string_ne_empty_of_cons _ _ m h1
  have hopen : strContains (recordJson r) ⟨[Char.ofNat 0x7b]⟩ = true :=
    strContains_char_true _ (Char.ofNat 0x7b) (by rw [h1]; exact List.mem_cons_self _ _)
  have hclose : strContains (recordJson r) ⟨[Char.ofNat 0x7d]⟩ = true :=
    strContains_char_true _ (Char.ofNat 0x7d) (by rw [h2]; simp)
  have hpre : strHasPrefix (recordJson r) ⟨['"']⟩ = false := by
    unfold strHasPrefix
    rw [h1]
    simp [List.isPrefixOf]
  rw [← brace_literals.1] at hopen
  rw [← brace_literals.2.1] at hclose
  rw [← brace_literals.2.2] at hpre
  exact ingestLine_json lib _ _ htrim hne hopen hclose hpre
    (jsonBranch_record lib r hip han hcolon)

theorem uqRun_escapeQuoted (acc l : List Char) (h : '\n' ∉ l) :
    uqRun (acc, .plain) (escapeQuoted l ++ ['"']) = some (acc ++ l, .closed) := by
  induction l generalizing acc with
  | nil => simp [escapeQuoted, uqRun, uqStep]
  | cons c cs ih =>
    have hc : c ≠ '\n' := fun e => h (by simp [e])
    have hcs : '\n' ∉ cs := fun e => h (List.mem_cons_of_mem _ e)
    by_cases hq : c = '"'
    · subst hq
      have e : escapeQuoted ('"' :: cs) ++ ['"'] = '\\' :: '"' :: (escapeQuoted cs ++ ['"']) := by
        simp [escapeQuoted]
      have s1 : uqStep (acc, .plain) '\\' = some (acc, .esc) := by simp [uqStep]
      have s2 : uqStep (acc, .esc) '"' = some (acc ++ ['"'], .plain) := by simp [uqStep]
      rw [e, uqRun, s1]
      simp only []
      rw [uqRun, s2]
      simp only []
      rw [ih (acc ++ ['"']) hcs]
      simp
    · by_cases hb : c = '\\'
      · subst hb
        have e : escapeQuoted ('\\' :: cs) ++ ['"'] =
            '\\' :: '\\' :: (escapeQuoted cs ++ ['"']) := by
          simp [escapeQuoted]
        have s1 : uqStep (acc, .plain) '\\' = some (acc, .esc) := by simp [uqStep]
        have s2 : uqStep (acc, .esc) '\\' = some (acc ++ ['\\'], .plain) := by simp [uqStep]
        rw [e, uqRun, s1]
        simp only []
        rw [uqRun, s2]
        simp only []
        rw [ih (acc ++ ['\\']) hcs]
        simp
      · have s1 : uqStep (acc, .plain) c = some (acc ++ [c], .plain) := by
          simp [uqStep, hq, hb, hc]
        have e : escapeQuoted (c :: cs) ++ ['"'] = c :: (escapeQuoted cs ++ ['"']) := by
          simp [escapeQuoted, hq, hb]
        rw [e, uqRun, s1]
        simp only []
        rw [ih (acc ++ [c]) hcs]
        simp

theorem Unquote_quoteWrap (t : String) (h : '\n' ∉ t.data) : Unquote (quoteWrap t) = some t := by
  unfold Unquote quoteWrap
  simp only [uqRun_escapeQuoted [] t.data h, List.nil_append]

theorem mem_escapeQuoted (x : Char) (l : List Char) (h : x ∈ l) : x ∈ escapeQuoted l := by
  induction l with
  | nil => exact absurd h (List.not_mem_nil _)
  | cons c cs ih =>
    rcases List.mem_cons.1 h with rfl | h'
    · unfold escapeQuoted
      split_ifs <;> simp
    · have := ih h'
      unfold escapeQuoted
      split_ifs <;> simp [this]

theorem jsonPlain_of_plainText (s : String) (h : PlainText s) : JsonPlain s.data := by
  intro c hc
  have hp := h c hc
  simp only [isPlainChar, Bool.and_eq_true, decide_eq_true_eq, bne_iff_ne, ne_eq] at hp
  obtain ⟨⟨⟨⟨⟨⟨⟨h1, h2⟩, h3⟩, _⟩, _⟩, _⟩, _⟩, _⟩ := hp
  exact ⟨h2, h3, by omega⟩

theorem jsonPlain_no_newline (l : List Char) (h : JsonPlain l) : '\n' ∉ l := by
  intro hm
  have := (h _ hm).2.2
  exact this (by decide)

theorem boolJson_no_newline (b : Bool) : '\n' ∉ (boolJson b).data := by
  cases b <;> decide

theorem recordJson_no_newline (r : IpInfo) (hip : JsonPlain r.IP.data)
    (han : JsonPlain r.Anonymity.data) : '\n' ∉ (recordJson r).data := by
  rw [recordJson_data]
  simp only [List.mem_append, not_or]
  refine ⟨by decide, jsonPlain_no_newline _ hip, by decide, boolJson_no_newline _, by decide,
    boolJson_no_newline _, by decide, boolJson_no_newline _, by decide,
    jsonPlain_no_newline _ han, by decide⟩

/-- The third line format: the line of a record, wrapped in one more layer of
quoting, gives the `ip` of the record. -/
theorem ingestLine_wrapped_record (lib : GoValues) (r : IpInfo) (hip : JsonPlain r.IP.data)
    (han : JsonPlain r.Anonymity.data) (hcolon : ':' ∈ r.IP.data) :
    ingestLine lib (quoteWrap (recordJson r)) = [r.IP] := by
  obtain ⟨m, m', h1, h2⟩ := recordJson_ends r
  have hdata : (quoteWrap (recordJson r)).data = '"' :: (escapeQuoted (recordJson r).data ++ ['"']) :=
    rfl
  have hdata' : (quoteWrap (recordJson r)).data =
      ('"' :: escapeQuoted (recordJson r).data) ++ ['"'] := rfl
  have hq := not_space_brace_quote.2.2
  have htrim : strTrimSpace (quoteWrap (recordJson r)) = quoteWrap (recordJson r) :=
    strTrimSpace_of_ends _ _ _ _ _ hdata hdata' hq hq
  have hne : quoteWrap (recordJson r) ≠ "" := string_ne_empty_of_cons _ _ _ hdata
  have hopen : strContains (quoteWrap (recordJson r)) ⟨[Char.ofNat 0x7b]⟩ = true := by
    apply strContains_char_true
    rw [hdata]
    apply List.mem_cons_of_mem
    apply List.mem_append_left
    apply mem_escapeQuoted
    rw [h1]
    exact List.mem_cons_self _ _
  have hclose : strContains (quoteWrap (recordJson r)) ⟨[Char.ofNat 0x7d]⟩ = true := by
    apply strContains_char_true
    rw [hdata]
    apply List.mem_cons_of_mem
    apply List.mem_append_left
    apply mem_escapeQuoted
    rw [h2]
    simp
  have hpre : strHasPrefix (quoteWrap (recordJson r)) ⟨['"']⟩ = true := by
    unfold strHasPrefix
    rw [hdata]
    simp [List.isPrefixOf]
  have hsuf : strHasSuffix (quoteWrap (recordJson r)) ⟨['"']⟩ = true := by
    unfold strHasSuffix
    rw [hdata']
    simp [List.isPrefixOf]
  rw [← brace_literals.1] at hopen
  rw [← brace_literals.2.1] at hclose
  rw [← brace_literals.2.2] at hpre hsuf
  exact ingestLine_quoted lib _ _ _ htrim hne hopen hclose hpre hsuf
    (Unquote_quoteWrap _ (recordJson_no_newline r hip han))
    (jsonBranch_record lib r hip han hcolon)

theorem jsonBranch_of_ip (lib : GoValues) (line s : String)
    (members : List (List Char × JVal)) (hj : jsonUnmarshal lib line = some members)
    (hip : members.lookup "ip".data = some (.str s.data)) (hcolon : ':' ∈ s.data) :
    jsonBranch lib line = some [s] := by
  unfold jsonBranch
  have hc : strContains ⟨s.data⟩ ":" = true := strContains_char_true ⟨s.data⟩ ':' hcolon
  simp only [hj, hip, hc, if_true]

theorem splitCharAux_line (l cur rest : List Char) (h : '\n' ∉ l) :
    splitCharAux '\n' cur (l ++ '\n' :: rest) = (cur.reverse ++ l) :: splitCharAux '\n' [] rest := by
  induction l generalizing cur with
  | nil => simp [splitCharAux]
  | cons c cs ih =>
    have hc : c ≠ '\n' := fun e => h (by simp [e])
    have hcs : '\n' ∉ cs := fun e => h (List.mem_cons_of_mem _ e)
    have e : splitCharAux '\n' cur (c :: cs ++ '\n' :: rest) =
        splitCharAux '\n' (c :: cur) (cs ++ '\n' :: rest) := by
      simp only [List.cons_append, splitCharAux, hc, if_false]
      rfl
    rw [e, ih (c :: cur) hcs]
    simp

theorem splitCharAux_joinLines (ls : List String) (h : ∀ l ∈ ls, '\n' ∉ l.data) :
    splitCharAux '\n' [] (joinLines ls).data = ls.map String.data ++ [[]] := by
  induction ls with
  | nil => rfl
  | cons l more ih =>
    have e : (joinLines (l :: more)).data = l.data ++ '\n' :: (joinLines more).data := by
      simp [joinLines]
    rw [e, splitCharAux_line _ _ _ (h l (List.mem_cons_self _ _)),
      ih (fun l' hl' => h l' (List.mem_cons_of_mem _ hl'))]
    simp

theorem SplitAndTrim_joinLines (ls : List String) (h : ∀ l ∈ ls, StableLine l) :
    SplitAndTrim (joinLines ls) '\n' = ls := by
  unfold SplitAndTrim strSplit
  rw [splitCharAux_joinLines ls (fun l hl => (h l hl).1)]
  simp only [List.map_append, List.map_map, List.map_cons, List.map_nil, List.filter_append]
  have hlast : List.filter (fun v : String => decide (v ≠ ""))
      [String.mk (trimChars isTrimChar (String.mk []).data)] = [] := by decide
  rw [hlast, List.append_nil]
  have hmap : ∀ l ∈ ls,
      ((fun v : String => String.mk (trimChars isTrimChar v.data)) ∘ String.mk ∘ String.data) l =
        l := by
    intro l hl
    obtain ⟨_, x, y, m, m', h1, h2, hx, hy⟩ := h l hl
    simp only [Function.comp]
    rw [trimChars_of_ends isTrimChar l.data m m' x y h1 h2 hx hy]
  rw [List.map_congr_left hmap, List.map_id']
  apply List.filter_eq_self.2
  intro l hl
  obtain ⟨_, x, y, m, m', h1, _⟩ := h l hl
  simp only [decide_eq_true_eq]
  exact string_ne_empty_of_cons l x m h1

theorem LoadPreviousIPs_joinLines (lib : GoValues) (ls : List String)
    (h : ∀ l ∈ ls, StableLine l) :
    LoadPreviousIPs lib (some (joinLines ls)) = ls.flatMap (ingestLine lib) := by
  unfold LoadPreviousIPs
  simp only [SplitAndTrim_joinLines ls h]

theorem endpointChar_not_trim (c : Char) (h : EndpointChar c) : isTrimChar c = false := by
  have hne := endpointChar_ne c
  unfold isTrimChar
  simp only [Bool.or_eq_false_iff, decide_eq_false_iff_not]
  refine ⟨⟨⟨⟨⟨⟨⟨?_, ?_⟩, ?_⟩, ?_⟩, ?_⟩, ?_⟩, ?_⟩, ?_⟩
  all_goals exact hne _ h (by decide)

theorem stableLine_endpoint (s : String) (h : EndpointShape s) : StableLine s := by
  obtain ⟨x, y, m, m', h1, h2, hx, hy⟩ := endpointShape_ends s h
  refine ⟨?_, x, y, m, m', h1, h2, endpointChar_not_trim x hx, endpointChar_not_trim y hy⟩
  intro hm
  exact endpointChar_ne _ _ (endpointShape_chars s h _ hm) (by decide) rfl

theorem stableLine_record (r : IpInfo) (hip : JsonPlain r.IP.data)
    (han : JsonPlain r.Anonymity.data) : StableLine (recordJson r) := by
  obtain ⟨m, m', h1, h2⟩ := recordJson_ends r
  exact ⟨recordJson_no_newline r hip han, _, _, m, m', h1, h2, by decide, by decide⟩

theorem mem_escapeQuoted_cases (x : Char) (l : List Char) (h : x ∈ escapeQuoted l) :
    x = '\\' ∨ x ∈ l := by
  induction l with
  | nil => exact absurd h (List.not_mem_nil _)
  | cons c cs ih =>
    unfold escapeQuoted at h
    split_ifs at h
    · simp only [List.mem_cons] at h
      rcases h with h | h | h
      · exact Or.inl h
      · exact Or.inr (by simp [h])
      · rcases ih h with h' | h'
        · exact Or.inl h'
        · exact Or.inr (List.mem_cons_of_mem _ h')
    · simp only [List.mem_cons] at h
      rcases h with h | h
      · exact Or.inr (by simp [h])
      · rcases ih h with h' | h'
        · exact Or.inl h'
        · exact Or.inr (List.mem_cons_of_mem _ h')

theorem stableLine_quoteWrap (t : String) (h : '\n' ∉ t.data) : StableLine (quoteWrap t) := by
  refine ⟨?_, '"', '"', escapeQuoted t.data ++ ['"'], '"' :: escapeQuoted t.data, rfl, rfl,
    by decide, by decide⟩
  intro hm
  have hd : (quoteWrap t).data = '"' :: (escapeQuoted t.data ++ ['"']) := rfl
  rw [hd] at hm
  simp only [List.mem_cons, List.mem_append, List.mem_singleton, List.not_mem_nil, or_false] at hm
  rcases hm with hm | hm | hm
  · exact absurd hm (by decide)
  · rcases mem_escapeQuoted_cases _ _ hm with h' | h'
    · exact absurd h' (by decide)
    · exact h h'
  · exact absurd hm (by decide)

theorem ne_empty_of_contains (line sub : String) (hsub : sub ≠ "")
    (h : strContains line sub = true) : line ≠ "" := by
  rintro rfl
  unfold strContains at h
  have hd : ("" : String).data = [] := rfl
  rw [hd] at h
  simp only [containsChars, List.isEmpty_iff] at h
  apply hsub
  cases sub
  simp_all

/-- C11. For every text `s` of the shape IPv4:port, the line ingestion of
`LoadPreviousIPs` yields exactly the one candidate `s` from the bare line `s`,
from the line that the run writes for a record with `ip` equal to `s`, and from
that line wrapped in one more layer of quoting with its inner quotes escaped; a
file made of the three lines yields `s` three times; and so does every line
that the JSON decoder reads as an object whose `ip` is `s`, wrapped or not. -/
theorem LoadPreviousIPs_three_formats (lib : GoValues) (s : String) (hs : EndpointShape s)
    (http https socks5 : Bool) (anonymity : String) (ha : PlainText anonymity) :
    ingestLine lib s = [s] ∧
      ingestLine lib (recordJson ⟨s, http, https, socks5, anonymity⟩) = [s] ∧
      ingestLine lib (quoteWrap (recordJson ⟨s, http, https, socks5, anonymity⟩)) = [s] ∧
      LoadPreviousIPs lib
          (some (joinLines [s, recordJson ⟨s, http, https, socks5, anonymity⟩,
            quoteWrap (recordJson ⟨s, http, https, socks5, anonymity⟩)])) = [s, s, s] ∧
      (∀ (line : String) (members : List (List Char × JVal)),
        strTrimSpace line = line → strContains line "\x7b" = true →
        strContains line "\x7d" = true → strHasPrefix line "\"" = false →
        jsonUnmarshal lib line = some members →
        members.lookup "ip".data = some (.str s.data) → ingestLine lib line = [s]) ∧
      (∀ (line inner : String) (members : List (List Char × JVal)),
        strTrimSpace line = line → strContains line "\x7b" = true →
        strContains line "\x7d" = true → strHasPrefix line "\"" = true →
        strHasSuffix line "\"" = true → Unquote line = some inner →
        jsonUnmarshal lib inner = some members →
        members.lookup "ip".data = some (.str s.data) → ingestLine lib line = [s]) := by
  have hchars := endpointShape_chars s hs
  have hip : JsonPlain s.data := by
    intro c hc
    have hp : PlainText s := fun d hd => endpointChar_plain d (hchars d hd)
    exact jsonPlain_of_plainText s hp c hc
  have han : JsonPlain anonymity.data := jsonPlain_of_plainText anonymity ha
  have hcolon := endpointShape_has_colon s hs
  have h1 := ingestLine_bare lib s hs
  have h2 := ingestLine_record lib ⟨s, http, https, socks5, anonymity⟩ hip han hcolon
  have h3 := ingestLine_wrapped_record lib ⟨s, http, https, socks5, anonymity⟩ hip han hcolon
  refine ⟨h1, h2, h3, ?_, ?_, ?_⟩
  · rw [LoadPreviousIPs_joinLines]
    · simp only [List.flatMap_cons, List.flatMap_nil, h1, h2, h3]
      rfl
    · intro l hl
      simp only [List.mem_cons, List.mem_singleton, List.not_mem_nil, or_false] at hl
      rcases hl with rfl | rfl | rfl
      · exact stableLine_endpoint _ hs
      · exact stableLine_record _ hip han
      · exact stableLine_quoteWrap _ (recordJson_no_newline _ hip han)
  · intro line members htrim hopen hclose hpre hj hlook
    exact ingestLine_json lib line [s] htrim (ne_empty_of_contains line _ (by decide) hopen)
      hopen hclose hpre (jsonBranch_of_ip lib line s members hj hlook hcolon)
  · intro line inner members htrim hopen hclose hpre hsuf hu hj hlook
    exact ingestLine_quoted lib line inner [s] htrim
      (ne_empty_of_contains line _ (by decide) hopen) hopen hclose hpre hsuf hu
      (jsonBranch_of_ip lib inner s members hj hlook hcolon)

/-- C11, an instance: the endpoint `10.0.0.1:8080` in the three formats. -/
theorem LoadPreviousIPs_three_formats_witness :
    recordJson ⟨"10.0.0.1:8080", true, false, true, "high"⟩ =
        "\x7b\"ip\":\"10.0.0.1:8080\",\"http\":true,\"https\":false,\"socks5\":true," ++
          "\"anonymity\":\"high\"\x7d" ∧
      ingestLine sampleValues "10.0.0.1:8080" = ["10.0.0.1:8080"] ∧
      ingestLine sampleValues (recordJson ⟨"10.0.0.1:8080", true, false, true, "high"⟩) =
        ["10.0.0.1:8080"] ∧
      ingestLine sampleValues
          (quoteWrap (recordJson ⟨"10.0.0.1:8080", true, false, true, "high"⟩)) =
        ["10.0.0.1:8080"] :=
  have h := LoadPreviousIPs_three_formats sampleValues "10.0.0.1:8080"
    ⟨"10".data, "0".data, "0".data, "1".data, "8080".data, rfl,
      ⟨by decide, by decide, by decide⟩, ⟨by decide, by decide, by decide⟩,
      ⟨by decide, by decide, by decide⟩, ⟨by decide, by decide, by decide⟩,
      ⟨by decide, by decide, by decide⟩⟩ true false true "high" (by unfold PlainText; decide)
  ⟨by decide, h.1, h.2.1, h.2.2.1⟩

end Proxies
